import Mathlib

/-!
Verification of the budget extraction and reconciliation engine of the
TravoMate travget-planning chatbot (`app.py`).

The embedding translates `extract_budget_from_response` (app.py lines
15-96) and the manual budget entry handler (lines 560-574):

* the regular-expression tables are embedded as token lists (`Tok`) and a
  deterministic matcher (`matchToks`); for the concrete patterns of the
  source the greedy maximal-munch strategy coincides with Python's
  leftmost-greedy backtracking search, because every character class in a
  pattern is disjoint from the first characters admissible after it
  (digits never follow the amount group inside a surviving alternative,
  whitespace never starts a keyword, etc.);
* Python float arithmetic (`user_budget * 0.1`, `user_budget /
  response_total`, `int(amount * scale_factor)`, the percentage literals)
  is embedded exactly: doubles are rationals, every operation rounds its
  exact rational result to 53 bits with round-to-nearest, ties-to-even
  (`roundDbl`).  Overflow and subnormals are not modelled; theorems that
  depend on float operations therefore carry explicit magnitude bounds on
  the user budget, far above any realistic input;
* `int()` truncation toward zero is `pyTrunc`; `int(s.replace(',', ''))`
  on a matched amount is `digitsVal`;
* Python dict semantics (insertion order, `not in`/`>` update) is the
  association list `List (Cat × Nat)` with `updateMax`;
* `if user_budget:` truthiness (None and 0 both falsy) is explicit in
  `reconcile`;
* the unguarded division `user_budget / response_total` is modelled by the
  dedicated outcome `ExtractOutcome.zeroDivError`, reached exactly when
  Python would raise `ZeroDivisionError`.
-/

/-- The five budget categories of the `patterns` table (app.py lines 26-47). -/
inductive Cat where
  | accommodation
  | transport
  | food
  | activities
  | miscellaneous
deriving DecidableEq, Repr

/-- The provenance tag returned as third component ("specific", "scaled",
"estimated"). -/
inductive Provenance where
  | specific
  | scaled
  | estimated
deriving DecidableEq, Repr

/-- Result of `extract_budget_from_response`: either `(None, None, None)`
(`absent`), a breakdown with total and tag, or an uncaught
`ZeroDivisionError` from `user_budget / response_total`. -/
inductive ExtractOutcome where
  | absent
  | result (bd : List (Cat × Int)) (total : Int) (tag : Provenance)
  | zeroDivError
deriving DecidableEq, Repr

/-! ## Character classes (ASCII fragments of Python's `\d`, `\s`, `[:\s-]`)

The source patterns only ever match ASCII keywords, ASCII digits, the
rupee sign and ASCII separators, so the ASCII fragment of Python's
Unicode-aware classes is faithful on every input the patterns can accept. -/

def isDigitCh (c : Char) : Bool := c.isDigit

def isSpaceCh (c : Char) : Bool :=
  c == ' ' || c == '\t' || c == '\n' || c == '\r' || c == '\x0b' || c == '\x0c'

/-- The class `[:\s-]` of the keyword-first patterns. -/
def isSepCh (c : Char) : Bool := c == ':' || isSpaceCh c || c == '-'

/-- `response_text.lower()` / ASCII case folding (`Char.toLower` lowers
exactly the ASCII range, which is the only range the patterns inspect). -/
def lowerText (s : List Char) : List Char := s.map Char.toLower

/-- Split off the maximal run of characters satisfying `p` (greedy `X*`). -/
def munchRun (p : Char → Bool) : List Char → List Char × List Char
  | [] => ([], [])
  | c :: rest =>
      if p c then
        let r := munchRun p rest
        (c :: r.1, r.2)
      else ([], c :: rest)

/-- Greedy `(?:,\d+)*`: repeatedly consume a comma followed by a digit run,
returning the digits (commas dropped, as by `.replace(',', '')`) and the
remainder.  Fuelled by the input length. -/
def munchGroups : Nat → List Char → List Char × List Char
  | 0, s => ([], s)
  | fuel + 1, s =>
      match s with
      | ',' :: rest =>
          match munchRun isDigitCh rest with
          | ([], _) => ([], s)
          | (d :: ds, r) =>
              let g := munchGroups fuel r
              (d :: ds ++ g.1, g.2)
      | _ => ([], s)

/-- Numeric value of a digit string: `int(...)` after comma removal. -/
def digitsVal (ds : List Char) : Nat :=
  ds.foldl (fun n c => 10 * n + (c.toNat - '0'.toNat)) 0

/-- Match the capture group `(\d+(?:,\d+)*)` at the head of `s`, returning
`int(group(1).replace(',', ''))` and the rest of the input. -/
def parseAmountAt (s : List Char) : Option (Nat × List Char) :=
  match munchRun isDigitCh s with
  | ([], _) => none
  | (d :: ds, r) =>
      let g := munchGroups r.length r
      some (digitsVal (d :: ds ++ g.1), g.2)

/-- `l` is a prefix of `s` (used for literal fragments of the patterns). -/
def leadsWith : List Char → List Char → Bool
  | [], _ => true
  | _ :: _, [] => false
  | a :: l, b :: s => a == b && leadsWith l s

/-- One syntactic element of a source regex.  Each source pattern is a
sequence of these with exactly one `amount` capture group. -/
inductive Tok where
  | lit (l : List Char)            -- literal text
  | litOpt (l : List Char)         -- optional literal, greedy (backtracks)
  | cls0 (p : Char → Bool)         -- greedy star over a character class
  | alt (ls : List (List Char))    -- ordered alternation of literals
  | amount                         -- the capture group of the amount

/-- Anchored match of a token sequence at the head of `s`, returning the
captured amount and the rest of the input after the match.  `litOpt` and
`alt` backtrack over the remaining tokens in Python's depth-first order;
character-class stars and the amount group use maximal munch, which agrees
with Python's backtracking search for the concrete patterns of the source
(see the header comment).  The fuel argument only makes the recursion
structural; `toksFuel` below always suffices, since every step either
consumes a token or peels one alternative. -/
def matchToks : Nat → List Tok → List Char → Option Nat →
    Option (Nat × List Char)
  | 0, _, _, _ => none
  | _ + 1, [], s, cap =>
      match cap with
      | some n => some (n, s)
      | none => none
  | fuel + 1, .lit l :: rest, s, cap =>
      if leadsWith l s then matchToks fuel rest (s.drop l.length) cap
      else none
  | fuel + 1, .litOpt l :: rest, s, cap =>
      if leadsWith l s then
        match matchToks fuel rest (s.drop l.length) cap with
        | some r => some r
        | none => matchToks fuel rest s cap
      else matchToks fuel rest s cap
  | fuel + 1, .cls0 p :: rest, s, cap =>
      matchToks fuel rest (munchRun p s).2 cap
  | _ + 1, .alt [] :: _, _, _ => none
  | fuel + 1, .alt (l :: ls) :: rest, s, cap =>
      match
        (if leadsWith l s then matchToks fuel rest (s.drop l.length) cap
         else none) with
      | some r => some r
      | none => matchToks fuel (.alt ls :: rest) s cap
  | fuel + 1, .amount :: rest, s, _cap =>
      match parseAmountAt s with
      | some (n, s2) => matchToks fuel rest s2 (some n)
      | none => none

/-- Sufficient matching fuel for a token sequence. -/
def toksFuel : List Tok → Nat
  | [] => 1
  | .alt ls :: rest => ls.length + 2 + toksFuel rest
  | _ :: rest => 2 + toksFuel rest

/-- Anchored match of one source pattern at the head of the input. -/
def matchPat (toks : List Tok) (s : List Char) : Option (Nat × List Char) :=
  matchToks (toksFuel toks) toks s none

/-- `re.finditer`: scan left to right, taking the leftmost match and
resuming after its end (every source pattern consumes at least one
character, so the scan advances; the fuel is the input length plus one). -/
def scanMatches (toks : List Tok) : Nat → List Char → List Nat
  | 0, _ => []
  | fuel + 1, s =>
      match matchPat toks s with
      | some (n, rest) => n :: scanMatches toks fuel rest
      | none =>
          match s with
          | [] => []
          | _ :: s2 => scanMatches toks fuel s2

/-- `re.search`: the first match of the pattern in the text, if any. -/
def findFirstAmount (toks : List Tok) : Nat → List Char → Option Nat
  | 0, _ => none
  | fuel + 1, s =>
      match matchPat toks s with
      | some (n, _) => some n
      | none =>
          match s with
          | [] => none
          | _ :: s2 => findFirstAmount toks fuel s2

/-! ## The pattern tables of the source (app.py lines 21 and 26-47) -/

/-- `₹\s*(\d+(?:,\d+)*)` — the user budget pattern (line 21). -/
def userPat : List Tok := [.lit ['₹'], .cls0 isSpaceCh, .amount]

def sepStar : Tok := .cls0 isSepCh
def spStar : Tok := .cls0 isSpaceCh
def rupeeOpt : Tok := .litOpt ['₹']
def forPerSlash : Tok := .alt ["for".toList, "per".toList, "/".toList]

/-- The two patterns of each category, in source order. -/
def categoryPatterns : Cat → List (List Tok)
  | .accommodation =>
      [[.lit "accommodation".toList, sepStar, rupeeOpt, spStar, .amount],
       [.lit ['₹'], spStar, .amount, spStar, forPerSlash, spStar,
        .lit "accommodation".toList]]
  | .transport =>
      [[.lit "transport".toList, .litOpt "ation".toList, sepStar, rupeeOpt,
        spStar, .amount],
       [.lit ['₹'], spStar, .amount, spStar, .litOpt ['('],
        .alt ["bike".toList, "car".toList, "train".toList, "bus".toList,
              "flight".toList]]]
  | .food =>
      [[.lit "food".toList, sepStar, rupeeOpt, spStar, .amount],
       [.lit ['₹'], spStar, .amount, spStar, forPerSlash, spStar,
        .lit "food".toList]]
  | .activities =>
      [[.litOpt "sightseeing and ".toList, .lit "activities".toList, sepStar,
        rupeeOpt, spStar, .amount],
       [.lit ['₹'], spStar, .amount, spStar, .litOpt ['('],
        .alt ["entrance".toList, "water sports".toList,
              "sightseeing".toList]]]
  | .miscellaneous =>
      [[.alt ["miscellaneous".toList, "misc".toList, "other".toList], sepStar,
        rupeeOpt, spStar, .amount],
       [.lit ['₹'], spStar, .amount, spStar, forPerSlash, spStar,
        .alt ["misc".toList, "other".toList]]]

/-- Iteration order of the `patterns` dict (insertion order of lines 26-47). -/
def catOrder : List Cat :=
  [.accommodation, .transport, .food, .activities, .miscellaneous]

/-! ## The response breakdown dict (lines 50-59) -/

/-- `response_breakdown[category] = amount` under the guard
`category not in response_breakdown or amount > response_breakdown[category]`:
an existing key keeps its position and is overwritten only by a strictly
larger amount; a new key is appended. -/
def updateMax : List (Cat × Nat) → Cat → Nat → List (Cat × Nat)
  | [], c, a => [(c, a)]
  | (c1, a1) :: rest, c, a =>
      if c1 = c then (if a > a1 then (c, a) else (c1, a1)) :: rest
      else (c1, a1) :: updateMax rest c a

/-- Python dict lookup on the association list. -/
def lookupBd : Cat → List (Cat × Nat) → Option Nat
  | _, [] => none
  | c, (c1, a1) :: rest => if c1 = c then some a1 else lookupBd c rest

/-- The inner loops for one category: every match of every pattern, kept
only when `amount >= 500` (the minimum threshold of line 57). -/
def stepCat (low : List Char) (bd : List (Cat × Nat)) (c : Cat) :
    List (Cat × Nat) :=
  (categoryPatterns c).foldl
    (fun bd pat =>
      (scanMatches pat (low.length + 1) low).foldl
        (fun bd a => if 500 ≤ a then updateMax bd c a else bd) bd)
    bd

/-- Lines 50-59: the `response_breakdown` dict built from the lowered
response text. -/
def parseBudget (response_text : List Char) : List (Cat × Nat) :=
  catOrder.foldl (stepCat (lowerText response_text)) []

/-- Lines 20-23: the first `₹`-marked number of the user input, if any. -/
def findUserBudget (user_input : List Char) : Option Nat :=
  findFirstAmount userPat (user_input.length + 1) user_input

/-- `sum(response_breakdown.values())`. -/
def sumVals (bd : List (Cat × Nat)) : Nat := (bd.map (fun p => p.2)).sum

/-- Sum of the values of a finished (integer-valued) breakdown. -/
def sumValsZ (bd : List (Cat × Int)) : Int := (bd.map (fun p => p.2)).sum

/-! ## Exact binary64 model of the Python float operations

A double is represented exactly as a dyadic rational `m * 2 ^ e`.  Every
Python float operation rounds its exact rational result to 53 significant
bits, round-to-nearest, ties-to-even; `roundPair a b` performs that
rounding on the fraction `a / b` with integer arithmetic only (so the
kernel can evaluate it).  Overflow and subnormals are not modelled: every
value reached in this program is far inside the normal range, and theorems
that quantify over the user budget carry an explicit magnitude bound.  No
float in the modelled code is ever negative, so `roundPair` is arbitrary
(zero) on nonpositive numerators. -/

/-- `2 ^ e` as a rational, for integer `e` (specification only). -/
def pow2 (e : Int) : ℚ :=
  if 0 ≤ e then ((2 ^ e.toNat : ℕ) : ℚ) else 1 / ((2 ^ (-e).toNat : ℕ) : ℚ)

/-- A dyadic rational `m * 2 ^ e`: the exact value of a binary64 float. -/
structure Dyadic where
  m : Int
  e : Int
deriving DecidableEq, Repr

/-- The rational value of a dyadic. -/
def Dyadic.toRat (d : Dyadic) : ℚ := (d.m : ℚ) * pow2 d.e

/-- Fuelled base-2 logarithm on naturals (structural, kernel-reducible). -/
def log2F : Nat → Nat → Nat
  | _, 0 => 0
  | 0, _ => 0
  | fuel + 1, n => if 2 ≤ n then log2F fuel (n / 2) + 1 else 0

/-- Floor of the base-2 logarithm of a positive natural. -/
def natLog2 (n : Nat) : Nat := log2F n n

/-- Decide `2 ^ c ≤ p / q` by cross multiplication. -/
def pow2LE (c : Int) (p q : Nat) : Bool :=
  if 0 ≤ c then decide (q * 2 ^ c.toNat ≤ p) else decide (q ≤ p * 2 ^ (-c).toNat)

/-- Floor of the base-2 logarithm of `p / q` (both positive). -/
def floorLogPair (p q : Nat) : Int :=
  let c : Int := (natLog2 p : Int) - (natLog2 q : Int)
  if pow2LE c p q then c else c - 1

/-- Round `num / den` to the nearest integer, ties to even. -/
def rnInt (num den : Nat) : Nat :=
  if 2 * (num % den) < den then num / den
  else if den < 2 * (num % den) then num / den + 1
  else if (num / den) % 2 = 0 then num / den else num / den + 1

/-- Round the positive fraction `a / b` to 53 significant bits
(round-to-nearest, ties-to-even). -/
def roundPair (a : Int) (b : Nat) : Dyadic :=
  if a ≤ 0 ∨ b = 0 then ⟨0, 0⟩
  else
    let p := a.toNat
    let e := floorLogPair p b - 52
    if 0 ≤ e then ⟨(rnInt p (b * 2 ^ e.toNat) : Nat), e⟩
    else ⟨(rnInt (p * 2 ^ (-e).toNat) b : Nat), e⟩

/-- Re-round a dyadic value (an exact product) to 53 bits. -/
def roundDyadic (d : Dyadic) : Dyadic :=
  if 0 ≤ d.e then roundPair (d.m * ((2 ^ d.e.toNat : Nat) : Int)) 1
  else roundPair d.m (2 ^ (-d.e).toNat)

/-- The binary64 values of the float literals `0.1`, `0.35`, `0.25`,
`0.20`, `0.15`, `0.05` of lines 69 and 83-87. -/
def lit0_1 : Dyadic := roundPair 1 10
def lit0_35 : Dyadic := roundPair 35 100
def lit0_25 : Dyadic := roundPair 25 100
def lit0_20 : Dyadic := roundPair 20 100
def lit0_15 : Dyadic := roundPair 15 100
def lit0_05 : Dyadic := roundPair 5 100

/-- `float(n)` for a Python int (exact below `2 ^ 53`). -/
def floatOfNat (n : Nat) : Dyadic := roundPair (n : Int) 1

/-- Binary64 multiplication: round the exact product. -/
def dMul (x y : Dyadic) : Dyadic := roundDyadic ⟨x.m * y.m, x.e + y.e⟩

/-- Python `int(...)` on a float: truncation toward zero. -/
def pyTrunc (d : Dyadic) : Int :=
  if 0 ≤ d.e then d.m * ((2 ^ d.e.toNat : Nat) : Int)
  else if 0 ≤ d.m then ((d.m.toNat / 2 ^ (-d.e).toNat : Nat) : Int)
  else -(((-d.m).toNat / 2 ^ (-d.e).toNat : Nat) : Int)

/-- Decide `d < n` for a dyadic and an integer (the comparison
`abs(response_total - user_budget) > user_budget * 0.1` of line 69,
exact in Python for an int and a float). -/
def dyLtInt (d : Dyadic) (n : Int) : Bool :=
  if 0 ≤ d.e then decide (d.m * ((2 ^ d.e.toNat : Nat) : Int) < n)
  else decide (d.m < n * ((2 ^ (-d.e).toNat : Nat) : Int))

/-! ## The reconciliation policy (lines 61-96) -/

/-- The finished breakdown values as Python ints. -/
def castBd (bd : List (Cat × Nat)) : List (Cat × Int) :=
  bd.map (fun p => (p.1, (p.2 : Int)))

/-- Lines 72-75: every amount times `scale_factor = user_budget /
response_total`, truncated.  CPython's `int / int` true division rounds
the exact integer quotient once to binary64 (it never converts the
operands to float first), so the scale factor is `roundPair u rt`; the
amount is then converted to float (one correct rounding) and multiplied
(one more rounding) before `int()` truncates. -/
def scaleMap (rb : List (Cat × Nat)) (u rt : Nat) : List (Cat × Int) :=
  rb.map (fun p => (p.1, pyTrunc (dMul (floatOfNat p.2) (roundPair (u : Int) rt))))

/-- Lines 82-88: the fixed percentage allocation of the user budget. -/
def estimatedBreakdown (u : Nat) : List (Cat × Int) :=
  [(Cat.accommodation, pyTrunc (dMul (floatOfNat u) lit0_35)),
   (Cat.transport, pyTrunc (dMul (floatOfNat u) lit0_25)),
   (Cat.food, pyTrunc (dMul (floatOfNat u) lit0_20)),
   (Cat.activities, pyTrunc (dMul (floatOfNat u) lit0_15)),
   (Cat.miscellaneous, pyTrunc (dMul (floatOfNat u) lit0_05))]

/-- Lines 92-96: the path taken when `if user_budget:` is falsy. -/
def noUserPath (rb : List (Cat × Nat)) : ExtractOutcome :=
  if rb = [] then .absent
  else .result (castBd rb) ((sumVals rb : Nat) : Int) .specific

/-- Lines 61-96 for `user_budget = some u`.  `if user_budget:` is falsy for
`0`; the deviation test of line 69 compares the exact integer
`abs(response_total - user_budget)` against the float
`user_budget * 0.1`; line 71 divides by `response_total`, raising
`ZeroDivisionError` when it is zero. -/
def withUserPath (rb : List (Cat × Nat)) (u : Nat) : ExtractOutcome :=
  if u = 0 then noUserPath rb
  else if rb = [] then .result (estimatedBreakdown u) (u : Int) .estimated
  else
    if dyLtInt (dMul (floatOfNat u) lit0_1)
        (((sumVals rb : Int) - (u : Int)).natAbs : Int) then
      if sumVals rb = 0 then .zeroDivError
      else .result (scaleMap rb u (sumVals rb)) (u : Int) .scaled
    else .result (castBd rb) ((sumVals rb : Nat) : Int) .specific

/-- The decision policy of lines 61-96 applied to the parsed breakdown and
the optional user budget. -/
def reconcile (rb : List (Cat × Nat)) (ub : Option Nat) : ExtractOutcome :=
  match ub with
  | some u => withUserPath rb u
  | none => noUserPath rb

/-- `extract_budget_from_response(response_text, user_input)`
(app.py lines 15-96). -/
def extract_budget_from_response (response_text user_input : List Char) :
    ExtractOutcome :=
  reconcile (parseBudget response_text) (findUserBudget user_input)

/-! ## Manual budget entry (app.py lines 560-574) -/

/-- The manual entry handler: build the dict in source order, drop the
zero values, and produce a breakdown only if something remains
(`if manual_budget:`). -/
def manual_budget (accommodation transport food activities misc : Nat) :
    Option (List (Cat × Nat)) :=
  let entries : List (Cat × Nat) :=
    [(Cat.accommodation, accommodation), (Cat.transport, transport),
     (Cat.food, food), (Cat.activities, activities),
     (Cat.miscellaneous, misc)]
  let kept := entries.filter (fun p => 0 < p.2)
  if kept = [] then none else some kept

/-- Modelled from the spec wording of the manual-entry contract: all
zero-valued entries are dropped; if at least one positive entry remains the
remaining entries form the breakdown, otherwise no breakdown is produced. -/
def manualEntrySpec (accommodation transport food activities misc : Nat) :
    Option (List (Cat × Nat)) :=
  if accommodation = 0 ∧ transport = 0 ∧ food = 0 ∧ activities = 0 ∧ misc = 0
  then none
  else some
    (([(Cat.accommodation, accommodation), (Cat.transport, transport),
       (Cat.food, food), (Cat.activities, activities),
       (Cat.miscellaneous, misc)] : List (Cat × Nat)).filter
      (fun p => 0 < p.2))

/-! ## Derived views used by the claims -/

/-- All match amounts of one category that survive the 500 threshold, in
scan order (the candidates the parser keeps for that category). -/
def survivors (c : Cat) (response_text : List Char) : List Nat :=
  ((categoryPatterns c).flatMap
    (fun pat =>
      scanMatches pat ((lowerText response_text).length + 1)
        (lowerText response_text))).filter (fun a => 500 ≤ a)

/-- Maximum of a list of naturals (zero on the empty list). -/
def listMax (l : List Nat) : Nat := l.foldl max 0

/-- One threshold-surviving amount combined into a category's current
entry, as the parser's update does (first seed, then strict-greater wins). -/
def combineAmt (o : Option Nat) (a : Nat) : Option Nat :=
  match o with
  | none => some a
  | some m => some (if a > m then a else m)

/-! # Lemmas -/

/-- A fold preserves any invariant its step preserves. -/
theorem foldl_preserve {α β : Type} (P : β → Prop) (f : β → α → β)
    (h : ∀ b a, P b → P (f b a)) :
    ∀ (l : List α) (b : β), P b → P (l.foldl f b) := by
  intro l
  induction l with
  | nil => intro b hb; exact hb
  | cons a l ih => intro b hb; exact ih _ (h _ _ hb)

/-- Every entry of `updateMax bd c a` carries either the new amount or an
amount already present in `bd`. -/
theorem mem_updateMax {bd : List (Cat × Nat)} {c : Cat} {a : Nat}
    {p : Cat × Nat} (hp : p ∈ updateMax bd c a) : p.2 = a ∨ p ∈ bd := by
  induction bd with
  | nil =>
      simp only [updateMax, List.mem_singleton] at hp
      left; rw [hp]
  | cons q rest ih =>
      obtain ⟨c1, a1⟩ := q
      simp only [updateMax] at hp
      by_cases hc : c1 = c
      · subst hc
        rw [if_pos rfl] at hp
        by_cases ha : a > a1
        · rw [if_pos ha] at hp
          rcases List.mem_cons.mp hp with h | h
          · left; rw [h]
          · right; exact List.mem_cons_of_mem _ h
        · rw [if_neg ha] at hp
          rcases List.mem_cons.mp hp with h | h
          · right; rw [h]; exact List.mem_cons_self _ _
          · right; exact List.mem_cons_of_mem _ h
      · rw [if_neg hc] at hp
        rcases List.mem_cons.mp hp with h | h
        · right; rw [h]; exact List.mem_cons_self _ _
        · rcases ih h with h2 | h2
          · left; exact h2
          · right; exact List.mem_cons_of_mem _ h2

/-- The threshold-filtered update step preserves the value invariant. -/
theorem stepCat_preserve (low : List Char) (bd : List (Cat × Nat)) (c : Cat)
    (hbd : ∀ p ∈ bd, 500 ≤ p.2) : ∀ p ∈ stepCat low bd c, 500 ≤ p.2 := by
  unfold stepCat
  refine foldl_preserve (fun bd : List (Cat × Nat) => ∀ p ∈ bd, 500 ≤ p.2) _ ?_ _ _ hbd
  intro bd2 pat hbd2
  refine foldl_preserve (fun bd : List (Cat × Nat) => ∀ p ∈ bd, 500 ≤ p.2) _ ?_ _ _ hbd2
  intro bd3 a hbd3 p hp
  by_cases h5 : 500 ≤ a
  · rw [if_pos h5] at hp
    rcases mem_updateMax hp with h | h
    · rw [h]; exact h5
    · exact hbd3 p h
  · rw [if_neg h5] at hp
    exact hbd3 p hp

/-- Threshold invariant of the parsed breakdown: every stored amount is at
least 500 (candidates below the threshold of line 57 are discarded). -/
theorem parseBudget_vals (reply : List Char) :
    ∀ p ∈ parseBudget reply, 500 ≤ p.2 := by
  unfold parseBudget
  refine foldl_preserve (fun bd : List (Cat × Nat) => ∀ p ∈ bd, 500 ≤ p.2) _ ?_ _ _ ?_
  · intro bd c hbd
    exact stepCat_preserve _ bd c hbd
  · intro p hp
    exact absurd hp (List.not_mem_nil p)

/-- `updateMax` leaves the entries of other categories unchanged. -/
theorem lookupBd_updateMax_ne (bd : List (Cat × Nat)) {c1 c : Cat} (a : Nat)
    (h : c1 ≠ c) : lookupBd c (updateMax bd c1 a) = lookupBd c bd := by
  induction bd with
  | nil =>
      simp only [updateMax, lookupBd]
      rw [if_neg h]
  | cons q rest ih =>
      obtain ⟨cq, aq⟩ := q
      simp only [updateMax]
      by_cases hq : cq = c1
      · subst hq
        rw [if_pos rfl]
        by_cases ha : a > aq
        · rw [if_pos ha]
          simp only [lookupBd]
          rw [if_neg h, if_neg h]
        · rw [if_neg ha]
      · rw [if_neg hq]
        simp only [lookupBd]
        by_cases hcq : cq = c
        · rw [if_pos hcq, if_pos hcq]
        · rw [if_neg hcq, if_neg hcq]
          exact ih

/-- `updateMax` on the looked-up category acts as `combineAmt`. -/
theorem lookupBd_updateMax_eq (bd : List (Cat × Nat)) (c : Cat) (a : Nat) :
    lookupBd c (updateMax bd c a) = combineAmt (lookupBd c bd) a := by
  induction bd with
  | nil => simp [updateMax, lookupBd, combineAmt]
  | cons q rest ih =>
      obtain ⟨cq, aq⟩ := q
      simp only [updateMax]
      by_cases hq : cq = c
      · subst hq
        rw [if_pos rfl]
        by_cases ha : a > aq
        · rw [if_pos ha]
          simp [lookupBd, combineAmt, ha]
        · rw [if_neg ha]
          simp [lookupBd, combineAmt, ha]
      · rw [if_neg hq]
        simp only [lookupBd]
        rw [if_neg hq, if_neg hq]
        exact ih

/-- One category's match-list fold, viewed through `lookupBd`: it combines
exactly the threshold-surviving amounts. -/
theorem lookupBd_amts_foldl (c : Cat) (amts : List Nat) :
    ∀ bd : List (Cat × Nat),
      lookupBd c
        (amts.foldl (fun bd a => if 500 ≤ a then updateMax bd c a else bd)
          bd) =
      (amts.filter (fun a => 500 ≤ a)).foldl combineAmt (lookupBd c bd) := by
  induction amts with
  | nil => intro bd; rfl
  | cons a rest ih =>
      intro bd
      by_cases h5 : 500 ≤ a
      · rw [List.foldl_cons, if_pos h5, ih, lookupBd_updateMax_eq]
        simp [List.filter_cons, h5]
      · rw [List.foldl_cons, if_neg h5]
        rw [ih bd]
        simp [List.filter_cons, h5]

/-- Another category's match-list fold does not touch this category. -/
theorem lookupBd_amts_foldl_ne {c1 c : Cat} (h : c1 ≠ c) (amts : List Nat) :
    ∀ bd : List (Cat × Nat),
      lookupBd c
        (amts.foldl (fun bd a => if 500 ≤ a then updateMax bd c1 a else bd)
          bd) =
      lookupBd c bd := by
  induction amts with
  | nil => intro bd; rfl
  | cons a rest ih =>
      intro bd
      by_cases h5 : 500 ≤ a
      · simp only [List.foldl_cons, if_pos h5]
        rw [ih, lookupBd_updateMax_ne _ _ h]
      · simp only [List.foldl_cons, if_neg h5]
        exact ih bd

/-- `stepCat` on the looked-up category combines all surviving amounts of
its patterns, in order. -/
theorem lookupBd_stepCat_eq (low : List Char) (c : Cat) :
    ∀ bd : List (Cat × Nat),
      lookupBd c (stepCat low bd c) =
      (((categoryPatterns c).flatMap
          (fun pat => scanMatches pat (low.length + 1) low)).filter
        (fun a => 500 ≤ a)).foldl combineAmt (lookupBd c bd) := by
  unfold stepCat
  induction categoryPatterns c with
  | nil => intro bd; rfl
  | cons pat pats ih =>
      intro bd
      simp only [List.foldl_cons, List.flatMap_cons, List.filter_append,
        List.foldl_append]
      rw [ih, lookupBd_amts_foldl]

/-- `stepCat` on another category leaves this category's entry unchanged. -/
theorem lookupBd_stepCat_ne (low : List Char) {c1 c : Cat} (h : c1 ≠ c) :
    ∀ bd : List (Cat × Nat),
      lookupBd c (stepCat low bd c1) = lookupBd c bd := by
  unfold stepCat
  induction categoryPatterns c1 with
  | nil => intro bd; rfl
  | cons pat pats ih =>
      intro bd
      simp only [List.foldl_cons]
      rw [ih, lookupBd_amts_foldl_ne h]

/-- The parser's entry for a category is the `combineAmt` fold of exactly
that category's surviving amounts. -/
theorem lookupBd_parseBudget (reply : List Char) (c : Cat) :
    lookupBd c (parseBudget reply) =
    (survivors c reply).foldl combineAmt none := by
  cases c
  case accommodation =>
    simp only [parseBudget, catOrder, List.foldl_cons, List.foldl_nil,
      survivors]
    rw [lookupBd_stepCat_ne _
        (show Cat.miscellaneous ≠ Cat.accommodation by decide),
      lookupBd_stepCat_ne _
        (show Cat.activities ≠ Cat.accommodation by decide),
      lookupBd_stepCat_ne _ (show Cat.food ≠ Cat.accommodation by decide),
      lookupBd_stepCat_ne _
        (show Cat.transport ≠ Cat.accommodation by decide),
      lookupBd_stepCat_eq]
    rfl
  case transport =>
    simp only [parseBudget, catOrder, List.foldl_cons, List.foldl_nil,
      survivors]
    rw [lookupBd_stepCat_ne _
        (show Cat.miscellaneous ≠ Cat.transport by decide),
      lookupBd_stepCat_ne _ (show Cat.activities ≠ Cat.transport by decide),
      lookupBd_stepCat_ne _ (show Cat.food ≠ Cat.transport by decide),
      lookupBd_stepCat_eq,
      lookupBd_stepCat_ne _
        (show Cat.accommodation ≠ Cat.transport by decide)]
    rfl
  case food =>
    simp only [parseBudget, catOrder, List.foldl_cons, List.foldl_nil,
      survivors]
    rw [lookupBd_stepCat_ne _ (show Cat.miscellaneous ≠ Cat.food by decide),
      lookupBd_stepCat_ne _ (show Cat.activities ≠ Cat.food by decide),
      lookupBd_stepCat_eq,
      lookupBd_stepCat_ne _ (show Cat.transport ≠ Cat.food by decide),
      lookupBd_stepCat_ne _ (show Cat.accommodation ≠ Cat.food by decide)]
    rfl
  case activities =>
    simp only [parseBudget, catOrder, List.foldl_cons, List.foldl_nil,
      survivors]
    rw [lookupBd_stepCat_ne _
        (show Cat.miscellaneous ≠ Cat.activities by decide),
      lookupBd_stepCat_eq,
      lookupBd_stepCat_ne _ (show Cat.food ≠ Cat.activities by decide),
      lookupBd_stepCat_ne _ (show Cat.transport ≠ Cat.activities by decide),
      lookupBd_stepCat_ne _
        (show Cat.accommodation ≠ Cat.activities by decide)]
    rfl
  case miscellaneous =>
    simp only [parseBudget, catOrder, List.foldl_cons, List.foldl_nil,
      survivors]
    rw [lookupBd_stepCat_eq,
      lookupBd_stepCat_ne _
        (show Cat.activities ≠ Cat.miscellaneous by decide),
      lookupBd_stepCat_ne _ (show Cat.food ≠ Cat.miscellaneous by decide),
      lookupBd_stepCat_ne _
        (show Cat.transport ≠ Cat.miscellaneous by decide),
      lookupBd_stepCat_ne _
        (show Cat.accommodation ≠ Cat.miscellaneous by decide)]
    rfl

/-- Folding `combineAmt` from a seed computes the running maximum. -/
theorem combineAmt_foldl_some (l : List Nat) :
    ∀ m : Nat, l.foldl combineAmt (some m) = some (l.foldl max m) := by
  induction l with
  | nil => intro m; rfl
  | cons a rest ih =>
      intro m
      simp only [List.foldl_cons, combineAmt]
      rw [ih]
      congr 1
      by_cases h : a > m
      · rw [if_pos h, Nat.max_eq_right (Nat.le_of_lt h)]
      · rw [if_neg h, Nat.max_eq_left (Nat.le_of_not_lt h)]

/-- Folding `combineAmt` from `none` over a nonempty list yields its
maximum. -/
theorem combineAmt_foldl_max (l : List Nat) (hl : l ≠ []) :
    l.foldl combineAmt none = some (listMax l) := by
  cases l with
  | nil => exact absurd rfl hl
  | cons a rest =>
      simp only [List.foldl_cons, combineAmt, listMax]
      rw [combineAmt_foldl_some, Nat.zero_max]

/-! ## Correctness of the binary64 rounding model -/

/-- The fuelled logarithm brackets its argument between powers of two. -/
theorem log2F_spec :
    ∀ (fuel n : Nat), 1 ≤ n → n ≤ fuel →
      2 ^ log2F fuel n ≤ n ∧ n < 2 ^ (log2F fuel n + 1) := by
  intro fuel
  induction fuel with
  | zero => intro n h1 h2; omega
  | succ fuel ih =>
      intro n h1 h2
      match n, h1 with
      | n + 1, _ =>
        by_cases h : 2 ≤ n + 1
        · have hrec := ih ((n + 1) / 2) (by omega) (by omega)
          simp only [log2F, if_pos h]
          constructor
          · calc 2 ^ (log2F fuel ((n + 1) / 2) + 1)
                = 2 ^ log2F fuel ((n + 1) / 2) * 2 := by ring
              _ ≤ (n + 1) / 2 * 2 := by
                  exact Nat.mul_le_mul_right 2 hrec.1
              _ ≤ n + 1 := by omega
          · have h2le : (n + 1) / 2 + 1 ≤ 2 ^ (log2F fuel ((n + 1) / 2) + 1) :=
              hrec.2
            have hpow : 2 ^ (log2F fuel ((n + 1) / 2) + 1 + 1) =
                2 * 2 ^ (log2F fuel ((n + 1) / 2) + 1) := by ring
            omega
        · have hn : n = 0 := by omega
          subst hn
          simp [log2F, h]
  
/-- `natLog2` brackets a positive natural between powers of two. -/
theorem natLog2_spec {n : Nat} (h : 1 ≤ n) :
    2 ^ natLog2 n ≤ n ∧ n < 2 ^ (natLog2 n + 1) :=
  log2F_spec n n h le_rfl

/-- `pow2` is the integer power of two in `ℚ`. -/
theorem pow2_eq_zpow (e : Int) : pow2 e = (2 : ℚ) ^ e := by
  unfold pow2
  by_cases h : 0 ≤ e
  · rw [if_pos h]
    push_cast
    rw [← zpow_natCast, Int.toNat_of_nonneg h]
  · rw [if_neg h]
    push_cast
    rw [one_div, ← zpow_natCast, Int.toNat_of_nonneg (by omega : (0:Int) ≤ -e),
      ← zpow_neg, neg_neg]

theorem pow2_pos (e : Int) : 0 < pow2 e := by
  rw [pow2_eq_zpow]; exact zpow_pos two_pos e

theorem pow2_ne_zero (e : Int) : pow2 e ≠ 0 := ne_of_gt (pow2_pos e)

theorem pow2_add (a b : Int) : pow2 (a + b) = pow2 a * pow2 b := by
  rw [pow2_eq_zpow, pow2_eq_zpow, pow2_eq_zpow]
  exact zpow_add₀ two_ne_zero a b

theorem pow2_le_pow2 {a b : Int} (h : a ≤ b) : pow2 a ≤ pow2 b := by
  rw [pow2_eq_zpow, pow2_eq_zpow]
  exact zpow_le_zpow_right₀ one_le_two h

theorem pow2_natCast (n : Nat) : pow2 (n : Int) = ((2 ^ n : ℕ) : ℚ) := by
  rw [pow2_eq_zpow]
  push_cast
  rw [zpow_natCast]

theorem pow2_neg (e : Int) : pow2 (-e) = (pow2 e)⁻¹ := by
  rw [pow2_eq_zpow, pow2_eq_zpow, zpow_neg]

theorem pow2_sub (a b : Int) : pow2 (a - b) = pow2 a / pow2 b := by
  rw [pow2_eq_zpow, pow2_eq_zpow, pow2_eq_zpow]
  exact zpow_sub₀ two_ne_zero a b

/-- Cross multiplication decides `2 ^ c ≤ p / q`. -/
theorem pow2LE_iff {c : Int} {p q : Nat} (hq : 0 < q) :
    pow2LE c p q = true ↔ pow2 c ≤ (p : ℚ) / q := by
  have hq0 : (0 : ℚ) < q := by exact_mod_cast hq
  unfold pow2LE
  by_cases h : 0 ≤ c
  · rw [if_pos h, decide_eq_true_iff]
    rw [le_div_iff₀ hq0]
    unfold pow2
    rw [if_pos h]
    constructor
    · intro hle
      calc ((2 ^ c.toNat : ℕ) : ℚ) * q = ((q * 2 ^ c.toNat : ℕ) : ℚ) := by
            push_cast; ring
        _ ≤ p := by exact_mod_cast hle
    · intro hle
      have : ((q * 2 ^ c.toNat : ℕ) : ℚ) ≤ p := by
        calc ((q * 2 ^ c.toNat : ℕ) : ℚ) = ((2 ^ c.toNat : ℕ) : ℚ) * q := by
              push_cast; ring
          _ ≤ p := hle
      exact_mod_cast this
  · rw [if_neg h, decide_eq_true_iff]
    unfold pow2
    rw [if_neg h]
    rw [div_le_div_iff (by positivity) hq0, one_mul]
    constructor
    · intro hle
      calc ((q : ℕ) : ℚ) ≤ ((p * 2 ^ (-c).toNat : ℕ) : ℚ) := by
            exact_mod_cast hle
        _ = (p : ℚ) * ((2 ^ (-c).toNat : ℕ) : ℚ) := by push_cast; ring
    · intro hle
      have : ((q : ℕ) : ℚ) ≤ ((p * 2 ^ (-c).toNat : ℕ) : ℚ) := by
        calc ((q : ℕ) : ℚ) ≤ (p : ℚ) * ((2 ^ (-c).toNat : ℕ) : ℚ) := hle
          _ = ((p * 2 ^ (-c).toNat : ℕ) : ℚ) := by push_cast; ring
      exact_mod_cast this

/-- Two power-of-two brackets of the same value have the same exponent. -/
theorem floorLog_unique {x : ℚ} {j k : Int} (h1 : pow2 j ≤ x)
    (h2 : x < pow2 (j + 1)) (h3 : pow2 k ≤ x) (h4 : x < pow2 (k + 1)) :
    j = k := by
  by_contra hne
  rcases lt_or_gt_of_ne hne with h | h
  · have : pow2 (j + 1) ≤ pow2 k := pow2_le_pow2 (by omega)
    linarith
  · have : pow2 (k + 1) ≤ pow2 j := pow2_le_pow2 (by omega)
    linarith

/-- `floorLogPair` brackets `p / q` between consecutive powers of two. -/
theorem floorLogPair_spec {p q : Nat} (hp : 0 < p) (hq : 0 < q) :
    pow2 (floorLogPair p q) ≤ (p : ℚ) / q ∧
    (p : ℚ) / q < pow2 (floorLogPair p q + 1) := by
  have hq0 : (0 : ℚ) < q := by exact_mod_cast hq
  have hps := natLog2_spec hp
  have hqs := natLog2_spec hq
  have hupper :
      (p : ℚ) / q < pow2 ((natLog2 p : Int) - natLog2 q + 1) := by
    have h1 : (p : ℚ) < ((2 ^ (natLog2 p + 1) : ℕ) : ℚ) := by
      exact_mod_cast hps.2
    have h2 : ((2 ^ natLog2 q : ℕ) : ℚ) ≤ q := by exact_mod_cast hqs.1
    have h3 : (0 : ℚ) < ((2 ^ natLog2 q : ℕ) : ℚ) := by positivity
    calc (p : ℚ) / q ≤ (p : ℚ) / ((2 ^ natLog2 q : ℕ) : ℚ) := by gcongr
      _ < ((2 ^ (natLog2 p + 1) : ℕ) : ℚ) / ((2 ^ natLog2 q : ℕ) : ℚ) := by
          gcongr
      _ = pow2 ((natLog2 p : Int) - natLog2 q + 1) := by
          rw [← pow2_natCast, ← pow2_natCast, ← pow2_sub]
          congr 1
          push_cast
          ring
  have hlower :
      pow2 ((natLog2 p : Int) - natLog2 q - 1) < (p : ℚ) / q := by
    have h1 : ((2 ^ natLog2 p : ℕ) : ℚ) ≤ p := by exact_mod_cast hps.1
    have h2 : (q : ℚ) < ((2 ^ (natLog2 q + 1) : ℕ) : ℚ) := by
      exact_mod_cast hqs.2
    have h3 : (0 : ℚ) < ((2 ^ natLog2 p : ℕ) : ℚ) := by positivity
    calc pow2 ((natLog2 p : Int) - natLog2 q - 1)
        = ((2 ^ natLog2 p : ℕ) : ℚ) / ((2 ^ (natLog2 q + 1) : ℕ) : ℚ) := by
          rw [← pow2_natCast, ← pow2_natCast, ← pow2_sub]
          congr 1
          push_cast
          ring
      _ < ((2 ^ natLog2 p : ℕ) : ℚ) / q := by gcongr
      _ ≤ (p : ℚ) / q := by gcongr
  have hdef : floorLogPair p q =
      if pow2LE ((natLog2 p : Int) - natLog2 q) p q
      then (natLog2 p : Int) - natLog2 q
      else (natLog2 p : Int) - natLog2 q - 1 := rfl
  rw [hdef]
  by_cases ht : pow2LE ((natLog2 p : Int) - natLog2 q) p q = true
  · rw [if_pos ht]
    exact ⟨(pow2LE_iff hq).mp ht, hupper⟩
  · rw [if_neg ht]
    refine ⟨le_of_lt hlower, ?_⟩
    have hx : ¬ pow2 ((natLog2 p : Int) - natLog2 q) ≤ (p : ℚ) / q := by
      intro hcon
      exact ht ((pow2LE_iff hq).mpr hcon)
    have harith : (natLog2 p : Int) - natLog2 q - 1 + 1 =
        (natLog2 p : Int) - natLog2 q := by ring
    rw [harith]
    exact lt_of_not_le hx

theorem pow2_zero : pow2 0 = 1 := by
  rw [pow2_eq_zpow]; norm_num

theorem pow2_neg_one : pow2 (-1) = 1 / 2 := by
  rw [pow2_eq_zpow]; norm_num

/-- `pow2` of a nonnegative exponent through `Int.toNat`. -/
theorem pow2_toNat {e : Int} (he : 0 ≤ e) :
    pow2 e = ((2 ^ e.toNat : ℕ) : ℚ) := by
  unfold pow2; rw [if_pos he]

/-- `pow2 e * 2 ^ (-e).toNat = 1` for a negative exponent. -/
theorem pow2_mul_toNat_neg {e : Int} (he : ¬ 0 ≤ e) :
    pow2 e * ((2 ^ (-e).toNat : ℕ) : ℚ) = 1 := by
  rw [← pow2_toNat (by omega : (0:Int) ≤ -e), ← pow2_add]
  simp [pow2_zero]

/-- The division-form value of `num / den` in `ℚ`. -/
theorem natDiv_toRat (num den : Nat) (hden : 0 < den) :
    (num : ℚ) / den =
      ((num / den : ℕ) : ℚ) + ((num % den : ℕ) : ℚ) / den := by
  have hq0 : (0:ℚ) < den := by exact_mod_cast hden
  have hcast : (num : ℚ) =
      (den : ℚ) * ((num / den : ℕ) : ℚ) + ((num % den : ℕ) : ℚ) := by
    exact_mod_cast (Nat.div_add_mod num den).symm
  rw [hcast]
  field_simp
  ring

/-- Round-to-nearest error of `rnInt` is at most one half. -/
theorem rnInt_spec {num den : Nat} (hden : 0 < den) :
    |((rnInt num den : ℕ) : ℚ) - (num : ℚ) / den| ≤ 1 / 2 := by
  have hq0 : (0:ℚ) < den := by exact_mod_cast hden
  have hmod : num % den < den := Nat.mod_lt _ hden
  have hval := natDiv_toRat num den hden
  have hf0 : (0:ℚ) ≤ ((num % den : ℕ) : ℚ) / den := by positivity
  unfold rnInt
  by_cases h1 : 2 * (num % den) < den
  · rw [if_pos h1, hval]
    have hhalf : ((num % den : ℕ) : ℚ) / den ≤ 1 / 2 := by
      rw [div_le_div_iff hq0 two_pos]
      have : (2 : ℚ) * ((num % den : ℕ) : ℚ) ≤ den := by
        exact_mod_cast le_of_lt h1
      linarith
    rw [abs_le]
    constructor <;> linarith
  · rw [if_neg h1]
    by_cases h2 : den < 2 * (num % den)
    · rw [if_pos h2, hval]
      have hf1 : ((num % den : ℕ) : ℚ) / den < 1 := by
        rw [div_lt_one hq0]
        exact_mod_cast hmod
      have hhalf : 1 / 2 ≤ ((num % den : ℕ) : ℚ) / den := by
        rw [div_le_div_iff two_pos hq0]
        have : (den : ℚ) ≤ 2 * ((num % den : ℕ) : ℚ) := by
          exact_mod_cast le_of_lt h2
        linarith
      push_cast
      rw [abs_le]
      constructor <;> linarith
    · have htie : ((num % den : ℕ) : ℚ) / den = 1 / 2 := by
        have hd : 2 * (num % den) = den := by omega
        have hdq : 2 * ((num % den : ℕ) : ℚ) = (den : ℚ) := by
          exact_mod_cast congrArg (fun n : ℕ => (n : ℚ)) hd
        rw [div_eq_div_iff (ne_of_gt hq0) two_ne_zero]
        linarith
      rw [if_neg h2]
      by_cases h3 : (num / den) % 2 = 0
      · rw [if_pos h3, hval, htie]
        push_cast
        rw [abs_le]
        constructor <;> linarith
      · rw [if_neg h3, hval, htie]
        push_cast
        rw [abs_le]
        constructor <;> linarith

/-- When the true quotient lies within a half below of the integer `v`,
`rnInt` returns exactly `v`. -/
theorem rnInt_exact {num den v : Nat} (hden : 0 < den)
    (h1 : (v : ℚ) ≤ (num : ℚ) / den)
    (h2 : (num : ℚ) / den - v < 1 / 2) :
    rnInt num den = v := by
  have hq0 : (0:ℚ) < den := by exact_mod_cast hden
  have hmod : num % den < den := Nat.mod_lt _ hden
  have hval := natDiv_toRat num den hden
  have hf0 : (0:ℚ) ≤ ((num % den : ℕ) : ℚ) / den := by positivity
  have hf1 : ((num % den : ℕ) : ℚ) / den < 1 := by
    rw [div_lt_one hq0]
    exact_mod_cast hmod
  have hm0v : num / den = v := by
    have hlow : (v:ℚ) < ((num / den : ℕ) : ℚ) + 1 := by
      rw [hval] at h1
      linarith
    have hhigh : ((num / den : ℕ) : ℚ) < (v:ℚ) + 1 := by
      rw [hval] at h2
      linarith
    have l1 : v < num / den + 1 := by exact_mod_cast hlow
    have l2 : num / den < v + 1 := by exact_mod_cast hhigh
    omega
  have hfr : ((num % den : ℕ) : ℚ) / den < 1 / 2 := by
    rw [hval, hm0v] at h2
    push_cast at h2
    linarith
  have h2r : 2 * (num % den) < den := by
    rw [div_lt_div_iff hq0 two_pos] at hfr
    have : 2 * ((num % den : ℕ) : ℚ) < den := by linarith
    exact_mod_cast this
  unfold rnInt
  rw [if_pos h2r, hm0v]

/-- Scaled error form of `rnInt`. -/
theorem rnInt_scale_err {num den : Nat} {x s : ℚ} (hden : 0 < den)
    (hs : 0 < s) (hkey : (num : ℚ) / den = x / s) :
    |((rnInt num den : ℕ) : ℚ) * s - x| ≤ s / 2 := by
  have h := @rnInt_spec num den hden
  rw [hkey] at h
  have hsplit : ((rnInt num den : ℕ) : ℚ) * s - x =
      (((rnInt num den : ℕ) : ℚ) - x / s) * s := by
    field_simp
  rw [hsplit, abs_mul, abs_of_pos hs]
  have hmul := mul_le_mul_of_nonneg_right h (le_of_lt hs)
  linarith

/-- Scaled exactness form of `rnInt`. -/
theorem rnInt_scale_exact {num den mv : Nat} {x s : ℚ} (hden : 0 < den)
    (hkey : (num : ℚ) / den = x / s)
    (hle : (mv : ℚ) ≤ x / s) (hlt : x / s - mv < 1 / 2) :
    rnInt num den = mv := by
  apply rnInt_exact hden
  · rw [hkey]; exact hle
  · rw [hkey]; exact hlt

/-- Half-ulp error bound for `roundPair`. -/
theorem roundPair_err_ulp {a : Int} {b : Nat} (ha : 0 < a) (hb : 0 < b) :
    |(roundPair a b).toRat - (a : ℚ) / b| ≤
      pow2 (floorLogPair a.toNat b - 53) := by
  have hguard : ¬ (a ≤ 0 ∨ b = 0) := by
    push_neg
    exact ⟨ha, Nat.pos_iff_ne_zero.mp hb⟩
  have hpq : ((a.toNat : ℕ) : ℚ) = (a : ℚ) := by
    exact_mod_cast congrArg (fun n : Int => (n : ℚ))
      (Int.toNat_of_nonneg (le_of_lt ha))
  have hb0 : (0 : ℚ) < b := by exact_mod_cast hb
  have hb' : (b : ℚ) ≠ 0 := ne_of_gt hb0
  simp only [roundPair]
  rw [if_neg hguard]
  by_cases he : 0 ≤ floorLogPair a.toNat b - 52
  · rw [if_pos he]
    simp only [Dyadic.toRat]
    have hden : 0 < b * 2 ^ (floorLogPair a.toNat b - 52).toNat := by
      positivity
    have hdval : ((b * 2 ^ (floorLogPair a.toNat b - 52).toNat : ℕ) : ℚ) =
        (b : ℚ) * pow2 (floorLogPair a.toNat b - 52) := by
      rw [pow2_toNat he]
      push_cast
      ring
    have hkey : ((a.toNat : ℕ) : ℚ) /
        ((b * 2 ^ (floorLogPair a.toNat b - 52).toNat : ℕ) : ℚ) =
        ((a : ℚ) / b) / pow2 (floorLogPair a.toNat b - 52) := by
      rw [hdval, hpq, div_div]
    have herr := rnInt_scale_err hden (pow2_pos _) hkey
    have hhalf : pow2 (floorLogPair a.toNat b - 52) / 2 =
        pow2 (floorLogPair a.toNat b - 53) := by
      rw [show floorLogPair a.toNat b - 53 =
        (floorLogPair a.toNat b - 52) + (-1) by ring, pow2_add, pow2_neg_one]
      ring
    rw [← hhalf]
    push_cast
    push_cast at herr
    exact herr
  · rw [if_neg he]
    simp only [Dyadic.toRat]
    have hmul := pow2_mul_toNat_neg he
    have hnval : ((a.toNat * 2 ^ (-(floorLogPair a.toNat b - 52)).toNat : ℕ) :
        ℚ) = (a : ℚ) * ((2 ^ (-(floorLogPair a.toNat b - 52)).toNat : ℕ) : ℚ)
        := by
      push_cast
      rw [hpq]
    have hkey : ((a.toNat * 2 ^ (-(floorLogPair a.toNat b - 52)).toNat : ℕ) :
        ℚ) / (b : ℚ) =
        ((a : ℚ) / b) / pow2 (floorLogPair a.toNat b - 52) := by
      rw [hnval, div_div, div_eq_div_iff hb'
        (ne_of_gt (mul_pos hb0 (pow2_pos (floorLogPair a.toNat b - 52))))]
      linear_combination (a : ℚ) * (b : ℚ) * hmul
    have herr := rnInt_scale_err hb (pow2_pos _) hkey
    have hhalf : pow2 (floorLogPair a.toNat b - 52) / 2 =
        pow2 (floorLogPair a.toNat b - 53) := by
      rw [show floorLogPair a.toNat b - 53 =
        (floorLogPair a.toNat b - 52) + (-1) by ring, pow2_add, pow2_neg_one]
      ring
    rw [← hhalf]
    push_cast
    push_cast at herr
    exact herr

/-- Relative error bound for `roundPair`: within one part in `2 ^ 53`. -/
theorem roundPair_err {a : Int} {b : Nat} (ha : 0 < a) (hb : 0 < b) :
    |(roundPair a b).toRat - (a : ℚ) / b| ≤ ((a : ℚ) / b) * pow2 (-53) := by
  have hp0 : 0 < a.toNat := by omega
  have hpq : ((a.toNat : ℕ) : ℚ) = (a : ℚ) := by
    exact_mod_cast congrArg (fun n : Int => (n : ℚ))
      (Int.toNat_of_nonneg (le_of_lt ha))
  have hulp := roundPair_err_ulp ha hb
  have hspec := floorLogPair_spec hp0 hb
  rw [hpq] at hspec
  calc |(roundPair a b).toRat - (a : ℚ) / b|
      ≤ pow2 (floorLogPair a.toNat b - 53) := hulp
    _ = pow2 (floorLogPair a.toNat b) * pow2 (-53) := by
        rw [show floorLogPair a.toNat b - 53 =
          floorLogPair a.toNat b + -53 by ring, pow2_add]
    _ ≤ ((a : ℚ) / b) * pow2 (-53) :=
        mul_le_mul_of_nonneg_right hspec.1 (le_of_lt (pow2_pos _))

/-- The rounded mantissa is never negative. -/
theorem roundPair_m_nonneg (a : Int) (b : Nat) : 0 ≤ (roundPair a b).m := by
  simp only [roundPair]
  by_cases hg : a ≤ 0 ∨ b = 0
  · rw [if_pos hg]
  · rw [if_neg hg]
    by_cases he : 0 ≤ floorLogPair a.toNat b - 52
    · rw [if_pos he]
      exact Int.natCast_nonneg _
    · rw [if_neg he]
      exact Int.natCast_nonneg _

/-- `roundPair` is exact on a representable integer value: if the true
quotient lies in `[v, v + halfulp v)` for an integer `v` below `2 ^ 53`,
rounding returns exactly `v`. -/
theorem roundPair_exact {a : Int} {b v : Nat} (ha : 0 < a) (hb : 0 < b)
    (hv1 : 1 ≤ v) (hv2 : v < 2 ^ 53)
    (hle : (v : ℚ) ≤ (a : ℚ) / b)
    (hlt : (a : ℚ) / b - v < pow2 ((natLog2 v : Int) - 53)) :
    (roundPair a b).toRat = v := by
  have hguard : ¬ (a ≤ 0 ∨ b = 0) := by
    push_neg
    exact ⟨ha, Nat.pos_iff_ne_zero.mp hb⟩
  have hb0 : (0 : ℚ) < b := by exact_mod_cast hb
  have hb' : (b : ℚ) ≠ 0 := ne_of_gt hb0
  have hp0 : 0 < a.toNat := by omega
  have hpq : ((a.toNat : ℕ) : ℚ) = (a : ℚ) := by
    exact_mod_cast congrArg (fun n : Int => (n : ℚ))
      (Int.toNat_of_nonneg (le_of_lt ha))
  have hvs := natLog2_spec hv1
  have hk52 : natLog2 v ≤ 52 := by
    by_contra hgt
    push_neg at hgt
    have hmono : 2 ^ 53 ≤ 2 ^ natLog2 v :=
      Nat.pow_le_pow_right (by norm_num) hgt
    omega
  have hvpow_le : pow2 (natLog2 v : Int) ≤ (v : ℚ) := by
    rw [pow2_natCast]
    exact_mod_cast hvs.1
  have hsmall : pow2 ((natLog2 v : Int) - 53) ≤ 1 / 2 := by
    have harg : (natLog2 v : Int) - 53 ≤ -1 := by omega
    calc pow2 ((natLog2 v : Int) - 53) ≤ pow2 (-1) := pow2_le_pow2 harg
      _ = 1 / 2 := pow2_neg_one
  have hxlt : (a : ℚ) / b < pow2 ((natLog2 v : Int) + 1) := by
    have hvnat : v + 1 ≤ 2 ^ (natLog2 v + 1) := hvs.2
    have hc : ((v + 1 : ℕ) : ℚ) ≤ ((2 ^ (natLog2 v + 1) : ℕ) : ℚ) := by
      exact_mod_cast hvnat
    have harg : ((natLog2 v + 1 : ℕ) : Int) = (natLog2 v : Int) + 1 := by
      push_cast
      ring
    rw [← pow2_natCast, harg] at hc
    push_cast at hc
    linarith
  have hxk : pow2 ((natLog2 v : Int)) ≤ (a : ℚ) / b :=
    le_trans hvpow_le hle
  have hkeq : floorLogPair a.toNat b = (natLog2 v : Int) := by
    have hspec := floorLogPair_spec hp0 hb
    rw [hpq] at hspec
    exact floorLog_unique hspec.1 hspec.2 hxk hxlt
  simp only [roundPair]
  rw [if_neg hguard, hkeq]
  by_cases he : 0 ≤ (natLog2 v : Int) - 52
  · rw [if_pos he]
    have he0 : (natLog2 v : Int) - 52 = 0 := by omega
    rw [he0]
    simp only [Dyadic.toRat, pow2_zero, Int.toNat_zero, pow_zero, mul_one]
    have hrn : rnInt a.toNat b = v := by
      apply rnInt_exact hb
      · rw [hpq]; exact hle
      · rw [hpq]
        have harg : (natLog2 v : Int) - 53 = -1 := by omega
        rw [harg, pow2_neg_one] at hlt
        exact hlt
    rw [hrn]
    simp
  · rw [if_neg he]
    simp only [Dyadic.toRat]
    have hmul := pow2_mul_toNat_neg he
    have hs := pow2_pos ((natLog2 v : Int) - 52)
    have hnval :
        ((a.toNat * 2 ^ (-((natLog2 v : Int) - 52)).toNat : ℕ) : ℚ) =
        (a : ℚ) * ((2 ^ (-((natLog2 v : Int) - 52)).toNat : ℕ) : ℚ) := by
      push_cast
      rw [hpq]
    have hkey :
        ((a.toNat * 2 ^ (-((natLog2 v : Int) - 52)).toNat : ℕ) : ℚ) /
          (b : ℚ) =
        ((a : ℚ) / b) / pow2 ((natLog2 v : Int) - 52) := by
      rw [hnval, div_div, div_eq_div_iff hb' (ne_of_gt (mul_pos hb0 hs))]
      linear_combination (a : ℚ) * (b : ℚ) * hmul
    have hmv :
        ((v * 2 ^ (-((natLog2 v : Int) - 52)).toNat : ℕ) : ℚ) =
        (v : ℚ) / pow2 ((natLog2 v : Int) - 52) := by
      rw [eq_div_iff (ne_of_gt hs)]
      push_cast
      push_cast at hmul
      linear_combination (v : ℚ) * hmul
    have hrn : rnInt (a.toNat * 2 ^ (-((natLog2 v : Int) - 52)).toNat) b =
        v * 2 ^ (-((natLog2 v : Int) - 52)).toNat := by
      apply rnInt_scale_exact hb hkey
      · rw [hmv]
        gcongr
      · rw [hmv, div_sub_div_same]
        calc ((a : ℚ) / b - v) / pow2 ((natLog2 v : Int) - 52)
            < pow2 ((natLog2 v : Int) - 53) /
                pow2 ((natLog2 v : Int) - 52) := by gcongr
          _ = pow2 (-1) := by
              rw [← pow2_sub]
              congr 1
              ring
          _ = 1 / 2 := pow2_neg_one
    rw [hrn]
    push_cast
    push_cast at hmul
    linear_combination (v : ℚ) * hmul

/-- Value form of a dyadic constructor. -/
theorem Dyadic.toRat_mk (m e : Int) :
    (Dyadic.mk m e).toRat = (m : ℚ) * pow2 e := rfl

/-- Value of a nonnegative-exponent re-rounding input. -/
theorem roundDyadic_val_pos {d : Dyadic} (he : 0 ≤ d.e) :
    ((d.m * ((2 ^ d.e.toNat : ℕ) : Int) : Int) : ℚ) / ((1 : ℕ) : ℚ) =
      d.toRat := by
  simp only [Dyadic.toRat, pow2_toNat he]
  push_cast
  ring

/-- Value of a negative-exponent re-rounding input. -/
theorem roundDyadic_val_neg {d : Dyadic} (he : ¬ 0 ≤ d.e) :
    (d.m : ℚ) / ((2 ^ (-d.e).toNat : ℕ) : ℚ) = d.toRat := by
  have ht0 : (0 : ℚ) < ((2 ^ (-d.e).toNat : ℕ) : ℚ) := by positivity
  have hmul := pow2_mul_toNat_neg he
  rw [Dyadic.toRat, div_eq_iff (ne_of_gt ht0)]
  linear_combination (-(d.m : ℚ)) * hmul

/-- Relative error of re-rounding an exact dyadic product. -/
theorem roundDyadic_err {d : Dyadic} (hm : 0 < d.m) :
    |(roundDyadic d).toRat - d.toRat| ≤ d.toRat * pow2 (-53) := by
  unfold roundDyadic
  by_cases he : 0 ≤ d.e
  · rw [if_pos he]
    have ha : 0 < d.m * ((2 ^ d.e.toNat : ℕ) : Int) := by positivity
    have herr :=
      @roundPair_err (d.m * ((2 ^ d.e.toNat : ℕ) : Int)) 1 ha Nat.one_pos
    rw [roundDyadic_val_pos he] at herr
    exact herr
  · rw [if_neg he]
    have hb2 : 0 < 2 ^ (-d.e).toNat := Nat.pos_pow_of_pos _ (by norm_num)
    have herr := @roundPair_err d.m (2 ^ (-d.e).toNat) hm hb2
    rw [roundDyadic_val_neg he] at herr
    exact herr

/-- Exactness of re-rounding at a representable integer value. -/
theorem roundDyadic_exact {d : Dyadic} (hm : 0 < d.m) {v : Nat}
    (hv1 : 1 ≤ v) (hv2 : v < 2 ^ 53) (hle : (v : ℚ) ≤ d.toRat)
    (hlt : d.toRat - v < pow2 ((natLog2 v : Int) - 53)) :
    (roundDyadic d).toRat = v := by
  unfold roundDyadic
  by_cases he : 0 ≤ d.e
  · rw [if_pos he]
    have ha : 0 < d.m * ((2 ^ d.e.toNat : ℕ) : Int) := by positivity
    apply roundPair_exact ha Nat.one_pos hv1 hv2
    · rw [roundDyadic_val_pos he]; exact hle
    · rw [roundDyadic_val_pos he]; exact hlt
  · rw [if_neg he]
    have hb2 : 0 < 2 ^ (-d.e).toNat := Nat.pos_pow_of_pos _ (by norm_num)
    apply roundPair_exact hm hb2 hv1 hv2
    · rw [roundDyadic_val_neg he]; exact hle
    · rw [roundDyadic_val_neg he]; exact hlt

theorem roundDyadic_m_nonneg (d : Dyadic) : 0 ≤ (roundDyadic d).m := by
  unfold roundDyadic
  by_cases he : 0 ≤ d.e
  · rw [if_pos he]; exact roundPair_m_nonneg _ _
  · rw [if_neg he]; exact roundPair_m_nonneg _ _

/-- The exact product value of the dyadic fed to `dMul`. -/
theorem dyadicProd_toRat (x y : Dyadic) :
    (Dyadic.mk (x.m * y.m) (x.e + y.e)).toRat = x.toRat * y.toRat := by
  simp only [Dyadic.toRat_mk, Dyadic.toRat, pow2_add]
  push_cast
  ring

theorem dMul_m_nonneg (x y : Dyadic) : 0 ≤ (dMul x y).m :=
  roundDyadic_m_nonneg _

/-- Relative error of binary64 multiplication. -/
theorem dMul_err {x y : Dyadic} (hx : 0 < x.m) (hy : 0 < y.m) :
    |(dMul x y).toRat - x.toRat * y.toRat| ≤
      x.toRat * y.toRat * pow2 (-53) := by
  have hm : 0 < (Dyadic.mk (x.m * y.m) (x.e + y.e)).m := mul_pos hx hy
  have h := roundDyadic_err hm
  rw [dyadicProd_toRat] at h
  exact h

/-- Exactness of binary64 multiplication at a representable integer. -/
theorem dMul_exact {x y : Dyadic} (hx : 0 < x.m) (hy : 0 < y.m) {v : Nat}
    (hv1 : 1 ≤ v) (hv2 : v < 2 ^ 53)
    (hle : (v : ℚ) ≤ x.toRat * y.toRat)
    (hlt : x.toRat * y.toRat - v < pow2 ((natLog2 v : Int) - 53)) :
    (dMul x y).toRat = v := by
  have hm : 0 < (Dyadic.mk (x.m * y.m) (x.e + y.e)).m := mul_pos hx hy
  have h := roundDyadic_exact hm hv1 hv2
    (by rw [dyadicProd_toRat]; exact hle)
    (by rw [dyadicProd_toRat]; exact hlt)
  exact h

/-- `float(n)` is exact below `2 ^ 53`. -/
theorem floatOfNat_toRat {n : Nat} (h1 : 1 ≤ n) (h2 : n < 2 ^ 53) :
    (floatOfNat n).toRat = n := by
  unfold floatOfNat
  have ha : 0 < (n : Int) := by exact_mod_cast h1
  apply roundPair_exact ha Nat.one_pos h1 h2
  · push_cast
    norm_num
  · push_cast
    norm_num
    exact pow2_pos _

theorem floatOfNat_m_nonneg (n : Nat) : 0 ≤ (floatOfNat n).m :=
  roundPair_m_nonneg _ _

theorem floatOfNat_m_pos {n : Nat} (h1 : 1 ≤ n) (h2 : n < 2 ^ 53) :
    0 < (floatOfNat n).m := by
  have h := floatOfNat_toRat h1 h2
  by_contra hle
  push_neg at hle
  have hnonpos : (floatOfNat n).toRat ≤ 0 := by
    rw [Dyadic.toRat]
    have hm : ((floatOfNat n).m : ℚ) ≤ 0 := by exact_mod_cast hle
    exact mul_nonpos_of_nonpos_of_nonneg hm (le_of_lt (pow2_pos _))
  rw [h] at hnonpos
  have : (1 : ℚ) ≤ n := by exact_mod_cast h1
  linarith

/-- The binary64 value of the literal `0.1`. -/
theorem lit0_1_eq : lit0_1 = ⟨7205759403792794, -56⟩ := by decide

theorem lit0_1_m_pos : 0 < lit0_1.m := by rw [lit0_1_eq]; norm_num

/-- `0.1` rounds up: its double is exactly `1/10 + 1/(10 * 2 ^ 54)`. -/
theorem lit0_1_toRat : lit0_1.toRat = 1 / 10 + 1 / (10 * 2 ^ 54) := by
  rw [lit0_1_eq]
  simp only [Dyadic.toRat_mk, pow2_eq_zpow]
  rw [show (-56 : Int) = -(56 : ℕ) by norm_num, zpow_neg, zpow_natCast]
  norm_num

/-- The comparison `dyLtInt` decides `d < n` exactly. -/
theorem dyLtInt_iff (d : Dyadic) (n : Int) :
    dyLtInt d n = true ↔ d.toRat < n := by
  unfold dyLtInt
  by_cases he : 0 ≤ d.e
  · rw [if_pos he, decide_eq_true_iff]
    have hval : d.toRat = ((d.m * ((2 ^ d.e.toNat : ℕ) : Int) : Int) : ℚ) := by
      rw [Dyadic.toRat, pow2_toNat he]
      push_cast
      ring
    rw [hval]
    exact ⟨fun h => by exact_mod_cast h, fun h => by exact_mod_cast h⟩
  · rw [if_neg he, decide_eq_true_iff]
    have ht0 : (0 : ℚ) < ((2 ^ (-d.e).toNat : ℕ) : ℚ) := by positivity
    have hval := roundDyadic_val_neg he
    rw [← hval, div_lt_iff ht0]
    constructor
    · intro h
      push_cast
      exact_mod_cast h
    · intro h
      push_cast at h
      exact_mod_cast h

/-- Truncation of a nonnegative float is nonnegative. -/
theorem pyTrunc_nonneg {d : Dyadic} (h : 0 ≤ d.m) : 0 ≤ pyTrunc d := by
  unfold pyTrunc
  by_cases he : 0 ≤ d.e
  · rw [if_pos he]
    exact mul_nonneg h (Int.natCast_nonneg _)
  · rw [if_neg he, if_pos h]
    exact Int.natCast_nonneg _

theorem pow2_neg53 : pow2 (-53) = 1 / 2 ^ 53 := by
  rw [pow2_eq_zpow, show (-53 : Int) = -((53 : ℕ) : Int) by norm_num,
    zpow_neg, zpow_natCast]
  norm_num

theorem pow2_neg54 : pow2 (-54) = 1 / 2 ^ 54 := by
  rw [pow2_eq_zpow, show (-54 : Int) = -((54 : ℕ) : Int) by norm_num,
    zpow_neg, zpow_natCast]
  norm_num

/-- Rational upper power bound from `natLog2`. -/
theorem natLog2_lt_q {v : Nat} (hv : 1 ≤ v) :
    (v : ℚ) < pow2 ((natLog2 v : Int) + 1) := by
  have hvs := natLog2_spec hv
  have harg : ((natLog2 v + 1 : ℕ) : Int) = (natLog2 v : Int) + 1 := by
    push_cast
    ring
  have hc : ((v : ℕ) : ℚ) < ((2 ^ (natLog2 v + 1) : ℕ) : ℚ) := by
    exact_mod_cast hvs.2
  rw [← pow2_natCast, harg] at hc
  exact hc

/-- The line-69 threshold test fires whenever the integer deviation
strictly exceeds a tenth of the user budget (exact arithmetic): the float
product `user_budget * 0.1` never drifts across the integer deviation. -/
theorem threshold_gt {u D : Nat} (hu1 : 1 ≤ u) (hu2 : (u : ℚ) < 2 ^ 52)
    (hD : u < 10 * D) :
    dyLtInt (dMul (floatOfNat u) lit0_1) ((D : Nat) : Int) = true := by
  rw [dyLtInt_iff]
  have hu53 : u < 2 ^ 53 := by
    have hu52 : u < 2 ^ 52 := by exact_mod_cast hu2
    omega
  have hfu := floatOfNat_toRat hu1 hu53
  have hfm := floatOfNat_m_pos hu1 hu53
  have herr := dMul_err hfm lit0_1_m_pos
  rw [hfu, lit0_1_toRat, pow2_neg53] at herr
  have habs := abs_le.mp herr
  have hDq : (u : ℚ) + 1 ≤ 10 * D := by
    exact_mod_cast (by omega : u + 1 ≤ 10 * D)
  push_cast
  nlinarith [habs.2, hu2, hDq]

/-- The line-69 threshold test never fires when the integer deviation is
at most a tenth of the user budget: at the exact boundary the rounding of
`user_budget * 0.1` lands exactly on the deviation. -/
theorem threshold_le {u D : Nat} (hu1 : 1 ≤ u) (hu2 : (u : ℚ) < 2 ^ 52)
    (hD : 10 * D ≤ u) :
    dyLtInt (dMul (floatOfNat u) lit0_1) ((D : Nat) : Int) = false := by
  have hu53 : u < 2 ^ 53 := by
    have hu52 : u < 2 ^ 52 := by exact_mod_cast hu2
    omega
  have hfu := floatOfNat_toRat hu1 hu53
  have hfm := floatOfNat_m_pos hu1 hu53
  have hTge : ((D : Nat) : ℚ) ≤ (dMul (floatOfNat u) lit0_1).toRat := by
    rcases lt_or_eq_of_le hD with hlt | heq
    · have herr := dMul_err hfm lit0_1_m_pos
      rw [hfu, lit0_1_toRat, pow2_neg53] at herr
      have habs := abs_le.mp herr
      have hDq : 10 * (D : ℚ) + 1 ≤ u := by
        exact_mod_cast (by omega : 10 * D + 1 ≤ u)
      nlinarith [habs.1, hu2, hDq]
    · have hD1 : 1 ≤ D := by omega
      have hD53 : D < 2 ^ 53 := by omega
      have hueq : (u : ℚ) = 10 * D := by exact_mod_cast heq.symm
      have hexact : (dMul (floatOfNat u) lit0_1).toRat = D := by
        apply dMul_exact hfm lit0_1_m_pos hD1 hD53
        · rw [hfu, lit0_1_toRat, hueq]
          have hDq0 : (0 : ℚ) ≤ D := by positivity
          nlinarith
        · rw [hfu, lit0_1_toRat, hueq]
          have hbound := natLog2_lt_q hD1
          have hsplit : pow2 ((natLog2 D : Int) - 53) =
              pow2 ((natLog2 D : Int) + 1) * pow2 (-54) := by
            rw [← pow2_add]
            congr 1
            ring
          rw [hsplit, pow2_neg54]
          have := mul_lt_mul_of_pos_right hbound
            (by positivity : (0 : ℚ) < 1 / 2 ^ 54)
          nlinarith
      rw [hexact]
  rw [Bool.eq_false_iff, Ne, dyLtInt_iff]
  push_cast
  push_cast at hTge
  exact not_lt.mpr hTge

/-! ## Reconciliation lemmas -/

theorem sumVals_cons (p : Cat × Nat) (rest : List (Cat × Nat)) :
    sumVals (p :: rest) = p.2 + sumVals rest := by
  simp [sumVals]

/-- The integer sum of a cast breakdown is the cast of the natural sum. -/
theorem sumValsZ_castBd (rb : List (Cat × Nat)) :
    sumValsZ (castBd rb) = ((sumVals rb : Nat) : Int) := by
  induction rb with
  | nil => rfl
  | cons p rest ih =>
      simp only [castBd, List.map_cons, sumValsZ, List.sum_cons, sumVals,
        List.map_map] at ih ⊢
      push_cast
      push_cast at ih
      linarith

/-- A nonempty parsed breakdown has a positive total. -/
theorem sumVals_pos {rb : List (Cat × Nat)} (hrb : rb ≠ [])
    (hvals : ∀ p ∈ rb, 500 ≤ p.2) : sumVals rb ≠ 0 := by
  obtain ⟨p, rest, rfl⟩ : ∃ p rest, rb = p :: rest := by
    cases rb with
    | nil => exact absurd rfl hrb
    | cons p r => exact ⟨p, r, rfl⟩
  have h5 := hvals p (List.mem_cons_self _ _)
  rw [sumVals_cons]
  omega

theorem reconcile_none (rb : List (Cat × Nat)) :
    reconcile rb none = noUserPath rb := rfl

theorem reconcile_some (rb : List (Cat × Nat)) (u : Nat) :
    reconcile rb (some u) = withUserPath rb u := rfl

/-- Exhaustive enumeration of the decision policy of lines 61-96. -/
theorem withUserPath_cases (rb : List (Cat × Nat)) (u : Nat) :
    (u = 0 ∧ withUserPath rb u = noUserPath rb) ∨
    (u ≠ 0 ∧ rb = [] ∧
      withUserPath rb u =
        .result (estimatedBreakdown u) (u : Int) .estimated) ∨
    (u ≠ 0 ∧ rb ≠ [] ∧
      dyLtInt (dMul (floatOfNat u) lit0_1)
        (((sumVals rb : Int) - (u : Int)).natAbs : Int) = true ∧
      sumVals rb = 0 ∧ withUserPath rb u = .zeroDivError) ∨
    (u ≠ 0 ∧ rb ≠ [] ∧
      dyLtInt (dMul (floatOfNat u) lit0_1)
        (((sumVals rb : Int) - (u : Int)).natAbs : Int) = true ∧
      sumVals rb ≠ 0 ∧
      withUserPath rb u =
        .result (scaleMap rb u (sumVals rb)) (u : Int) .scaled) ∨
    (u ≠ 0 ∧ rb ≠ [] ∧
      dyLtInt (dMul (floatOfNat u) lit0_1)
        (((sumVals rb : Int) - (u : Int)).natAbs : Int) = false ∧
      withUserPath rb u =
        .result (castBd rb) ((sumVals rb : Nat) : Int) .specific) := by
  unfold withUserPath
  by_cases h0 : u = 0
  · left
    exact ⟨h0, by rw [if_pos h0]⟩
  · right
    by_cases hrb : rb = []
    · left
      exact ⟨h0, hrb, by rw [if_neg h0, if_pos hrb]⟩
    · right
      by_cases hdev : dyLtInt (dMul (floatOfNat u) lit0_1)
          (((sumVals rb : Int) - (u : Int)).natAbs : Int) = true
      · by_cases hrt : sumVals rb = 0
        · left
          exact ⟨h0, hrb, hdev, hrt,
            by rw [if_neg h0, if_neg hrb, if_pos hdev, if_pos hrt]⟩
        · right
          left
          exact ⟨h0, hrb, hdev, hrt,
            by rw [if_neg h0, if_neg hrb, if_pos hdev, if_neg hrt]⟩
      · right
        right
        exact ⟨h0, hrb, Bool.eq_false_iff.mpr hdev,
          by rw [if_neg h0, if_neg hrb, if_neg hdev]⟩

/-- Anything `noUserPath` returns is an as-is breakdown tagged specific. -/
theorem noUserPath_result {rb : List (Cat × Nat)} {bd : List (Cat × Int)}
    {t : Int} {tag : Provenance} (h : noUserPath rb = .result bd t tag) :
    tag = .specific ∧ bd = castBd rb ∧ t = ((sumVals rb : Nat) : Int) := by
  unfold noUserPath at h
  by_cases hrb : rb = []
  · rw [if_pos hrb] at h
    exact absurd h (by simp)
  · rw [if_neg hrb] at h
    rw [ExtractOutcome.result.injEq] at h
    exact ⟨h.2.2.symm, h.1.symm, h.2.1.symm⟩

/-- In any specific-tagged result the total is the sum of the values
(lines 77-79 and 92-94 return the breakdown's own sum). -/
theorem reconcile_specific_total {rb : List (Cat × Nat)} {ub : Option Nat}
    {bd : List (Cat × Int)} {t : Int}
    (h : reconcile rb ub = .result bd t .specific) :
    t = sumValsZ bd := by
  have key : noUserPath rb = .result bd t .specific → t = sumValsZ bd := by
    intro h2
    obtain ⟨-, hbd, ht⟩ := noUserPath_result h2
    rw [ht, hbd, sumValsZ_castBd]
  cases ub with
  | none =>
      rw [reconcile_none] at h
      exact key h
  | some u =>
      rw [reconcile_some] at h
      rcases withUserPath_cases rb u with ⟨-, heq⟩ | ⟨-, -, heq⟩ |
        ⟨-, -, -, -, heq⟩ | ⟨-, -, -, -, heq⟩ | ⟨-, -, -, heq⟩ <;>
        rw [heq] at h
      · exact key h
      · simp at h
      · simp at h
      · simp at h
      · rw [ExtractOutcome.result.injEq] at h
        rw [← h.2.1, ← h.1, sumValsZ_castBd]

/-- In any scaled- or estimated-tagged result the total is the user
budget (lines 76 and 89 both return `user_budget`). -/
theorem reconcile_nonspecific_total {rb : List (Cat × Nat)}
    {ub : Option Nat} {bd : List (Cat × Int)} {t : Int} {tag : Provenance}
    (h : reconcile rb ub = .result bd t tag)
    (htag : tag ≠ .specific) : ∃ u, ub = some u ∧ t = (u : Int) := by
  cases ub with
  | none =>
      rw [reconcile_none] at h
      obtain ⟨htag2, -, -⟩ := noUserPath_result h
      exact absurd htag2 htag
  | some u =>
      rw [reconcile_some] at h
      rcases withUserPath_cases rb u with ⟨-, heq⟩ | ⟨-, -, heq⟩ |
        ⟨-, -, -, -, heq⟩ | ⟨-, -, -, -, heq⟩ | ⟨-, -, -, heq⟩ <;>
        rw [heq] at h
      · obtain ⟨htag2, -, -⟩ := noUserPath_result h
        exact absurd htag2 htag
      · rw [ExtractOutcome.result.injEq] at h
        exact ⟨u, rfl, h.2.1.symm⟩
      · simp at h
      · rw [ExtractOutcome.result.injEq] at h
        exact ⟨u, rfl, h.2.1.symm⟩
      · rw [ExtractOutcome.result.injEq] at h
        exact absurd h.2.2.symm htag

/-- The reconciler never reaches the division by zero: every parsed
amount is at least 500, so a nonempty breakdown has a nonzero total. -/
theorem reconcile_ne_zeroDiv {rb : List (Cat × Nat)} {ub : Option Nat}
    (hvals : ∀ p ∈ rb, 500 ≤ p.2) : reconcile rb ub ≠ .zeroDivError := by
  have hnu : noUserPath rb ≠ .zeroDivError := by
    unfold noUserPath
    by_cases hrb : rb = []
    · rw [if_pos hrb]
      simp
    · rw [if_neg hrb]
      simp
  cases ub with
  | none =>
      rw [reconcile_none]
      exact hnu
  | some u =>
      rw [reconcile_some]
      rcases withUserPath_cases rb u with ⟨-, heq⟩ | ⟨-, -, heq⟩ |
        ⟨-, hrb, -, hrt, heq⟩ | ⟨-, -, -, -, heq⟩ | ⟨-, -, -, heq⟩ <;>
        rw [heq]
      · exact hnu
      · simp
      · exact absurd hrt (sumVals_pos hrb hvals)
      · simp
      · simp

/-- Values of every returned breakdown are nonnegative, and at least 500
in the specific case. -/
theorem reconcile_vals {rb : List (Cat × Nat)} {ub : Option Nat}
    {bd : List (Cat × Int)} {t : Int} {tag : Provenance}
    (hvals : ∀ p ∈ rb, 500 ≤ p.2)
    (h : reconcile rb ub = .result bd t tag) :
    ∀ p ∈ bd, 0 ≤ p.2 ∧ (tag = .specific → 500 ≤ p.2) := by
  have hcast : ∀ p ∈ castBd rb, 0 ≤ p.2 ∧ 500 ≤ p.2 := by
    intro p hp
    simp only [castBd, List.mem_map] at hp
    obtain ⟨q, hq, rfl⟩ := hp
    have h5 := hvals q hq
    exact ⟨show (0 : Int) ≤ (q.2 : Int) by exact_mod_cast Nat.zero_le _,
      show (500 : Int) ≤ (q.2 : Int) by exact_mod_cast h5⟩
  have key : noUserPath rb = .result bd t tag →
      ∀ p ∈ bd, 0 ≤ p.2 ∧ (tag = .specific → 500 ≤ p.2) := by
    intro h2 p hp
    obtain ⟨-, hbd, -⟩ := noUserPath_result h2
    rw [hbd] at hp
    exact ⟨(hcast p hp).1, fun _ => (hcast p hp).2⟩
  cases ub with
  | none =>
      rw [reconcile_none] at h
      exact key h
  | some u =>
      rw [reconcile_some] at h
      rcases withUserPath_cases rb u with ⟨-, heq⟩ | ⟨-, -, heq⟩ |
        ⟨-, -, -, -, heq⟩ | ⟨-, -, -, -, heq⟩ | ⟨-, -, -, heq⟩ <;>
        rw [heq] at h
      · exact key h
      · rw [ExtractOutcome.result.injEq] at h
        intro p hp
        rw [← h.1] at hp
        have hnn : 0 ≤ p.2 := by
          simp only [estimatedBreakdown, List.mem_cons,
            List.not_mem_nil, or_false] at hp
          rcases hp with rfl | rfl | rfl | rfl | rfl <;>
            exact pyTrunc_nonneg (dMul_m_nonneg _ _)
        refine ⟨hnn, fun htag => ?_⟩
        rw [← h.2.2] at htag
        simp at htag
      · simp at h
      · rw [ExtractOutcome.result.injEq] at h
        intro p hp
        rw [← h.1] at hp
        have hnn : 0 ≤ p.2 := by
          simp only [scaleMap, List.mem_map] at hp
          obtain ⟨q, -, rfl⟩ := hp
          exact pyTrunc_nonneg (dMul_m_nonneg _ _)
        refine ⟨hnn, fun htag => ?_⟩
        rw [← h.2.2] at htag
        simp at htag
      · rw [ExtractOutcome.result.injEq] at h
        intro p hp
        rw [← h.1] at hp
        refine ⟨(hcast p hp).1, fun _ => (hcast p hp).2⟩

/-- Cast of the integer deviation used on line 69. -/
theorem devCast (rt u : Nat) :
    ((((rt : Int) - (u : Int)).natAbs : Nat) : ℚ) =
      |(rt : ℚ) - (u : ℚ)| := by
  rw [Int.cast_natAbs]
  congr 1
  push_cast
  ring

/-- Line 69 fires and lines 70-76 scale, when the deviation strictly
exceeds ten percent of the user budget. -/
theorem reconcile_scaled {rb : List (Cat × Nat)} {u : Nat} (hrb : rb ≠ [])
    (hu1 : 1 ≤ u) (hu2 : (u : ℚ) < 2 ^ 52)
    (hvals : ∀ p ∈ rb, 500 ≤ p.2)
    (hdev : |(sumVals rb : ℚ) - (u : ℚ)| > (10 / 100) * u) :
    reconcile rb (some u) =
      .result (scaleMap rb u (sumVals rb)) (u : Int) .scaled := by
  rw [reconcile_some]
  have hrt := sumVals_pos hrb hvals
  have hDgt : u < 10 * ((sumVals rb : Int) - (u : Int)).natAbs := by
    have hq : (u : ℚ) <
        10 * ((((sumVals rb : Int) - (u : Int)).natAbs : Nat) : ℚ) := by
      rw [devCast]
      linarith
    exact_mod_cast hq
  have hthr := threshold_gt hu1 hu2 hDgt
  unfold withUserPath
  rw [if_neg (by omega : ¬ u = 0), if_neg hrb, if_pos hthr, if_neg hrt]

/-- Line 69 does not fire and lines 77-79 pass the breakdown through,
when the deviation is at most ten percent of the user budget. -/
theorem reconcile_passthrough {rb : List (Cat × Nat)} {u : Nat}
    (hrb : rb ≠ []) (hu1 : 1 ≤ u) (hu2 : (u : ℚ) < 2 ^ 52)
    (hdev : |(sumVals rb : ℚ) - (u : ℚ)| ≤ (10 / 100) * u) :
    reconcile rb (some u) =
      .result (castBd rb) ((sumVals rb : Nat) : Int) .specific := by
  rw [reconcile_some]
  have hDle : 10 * ((sumVals rb : Int) - (u : Int)).natAbs ≤ u := by
    have hq : 10 * ((((sumVals rb : Int) - (u : Int)).natAbs : Nat) : ℚ) ≤
        (u : ℚ) := by
      rw [devCast]
      linarith
    exact_mod_cast hq
  have hthr := threshold_le hu1 hu2 hDle
  unfold withUserPath
  rw [if_neg (by omega : ¬ u = 0), if_neg hrb,
    if_neg (show
      ¬ dyLtInt (dMul (floatOfNat u) lit0_1)
          (((sumVals rb : Int) - (u : Int)).natAbs : Int) = true by
        rw [hthr]
        simp)]

/-- Lines 80-89: with a nonzero user budget and no parsed breakdown the
estimated allocation is returned. -/
theorem reconcile_estim {u : Nat} (hu : u ≠ 0) :
    reconcile [] (some u) =
      .result (estimatedBreakdown u) (u : Int) .estimated := by
  rw [reconcile_some]
  unfold withUserPath
  rw [if_neg hu, if_pos rfl]

/-- A parsed user budget of zero is falsy on line 62: the reconciler
behaves exactly as with no user budget at all. -/
theorem reconcile_zero (rb : List (Cat × Nat)) :
    reconcile rb (some 0) = reconcile rb none := by
  rw [reconcile_some, reconcile_none]
  unfold withUserPath
  rw [if_pos rfl]

set_option maxRecDepth 16384

/-! # Claims -/

/-- Claim C1, counterexample: in the scaled case the returned total is the
user budget (10000) while the returned values sum to 9999, so the total
does not equal the sum of the values in all three provenance cases. -/
theorem C1_counterexample :
    extract_budget_from_response
        "Accommodation: ₹4000, Transport: ₹2000".toList
        "plan a trip for ₹10000".toList =
      .result [(Cat.accommodation, 6666), (Cat.transport, 3333)] 10000
        .scaled ∧
    sumValsZ [(Cat.accommodation, 6666), (Cat.transport, 3333)] ≠ 10000 :=
  ⟨by decide, by decide⟩

/-- Claim C1, amended: the returned total equals the sum of the returned
values exactly in the specific case; in the scaled and estimated cases the
returned total is the user's stated budget, which truncation can leave
different from the sum of the values. -/
theorem C1_amended :
    (∀ (reply user : List Char) (bd : List (Cat × Int)) (t : Int),
        extract_budget_from_response reply user = .result bd t .specific →
        t = sumValsZ bd) ∧
    (∀ (reply user : List Char) (bd : List (Cat × Int)) (t : Int)
        (tag : Provenance),
        extract_budget_from_response reply user = .result bd t tag →
        tag ≠ .specific →
        ∃ u, findUserBudget user = some u ∧ t = (u : Int)) := by
  constructor
  · intro reply user bd t h
    exact reconcile_specific_total h
  · intro reply user bd t tag h htag
    exact reconcile_nonspecific_total h htag

/-- Witness for C1 at a concrete specific-tagged extraction. -/
theorem C1_witness :
    (9800 : Int) =
      sumValsZ [(Cat.accommodation, 5000), (Cat.food, 4800)] :=
  C1_amended.1 "accommodation: ₹5000, food: ₹4800".toList
    "my budget is ₹10,000".toList
    [(Cat.accommodation, 5000), (Cat.food, 4800)] 9800 (by decide)

/-- Claim C2, counterexample: parsed breakdown accommodation 500 with
user total 1023 (deviation 523, far above ten percent) scales to 1022,
while 500 multiplied by 1023/500 and truncated is exactly 1023 — the
double-precision product falls one unit short of the claim's exact
arithmetic. -/
theorem C2_counterexample :
    extract_budget_from_response "accommodation: ₹500".toList
        "trip for ₹1023".toList =
      .result [(Cat.accommodation, 1022)] 1023 .scaled ∧
    (1022 : Int) ≠ (500 * 1023) / 500 :=
  ⟨by decide, by decide⟩

/-- Claim C2, amended: under a deviation strictly above ten percent the
extractor returns each amount converted to binary64 and multiplied by
the correctly rounded binary64 quotient userTotal/responseTotal (the
exact integers divided with one rounding, as CPython's int `/` does),
then truncated (`scaleMap`), tagged scaled with total userTotal; this
can fall one unit short of exact truncated multiplication.  The claim's
own instance holds exactly: parsed accommodation 4000, transport 2000
with user total 10000 yields 6666 and 3333, tagged scaled.  (The user
budget and every parsed amount are bounded by `2 ^ 52`: within that
range every conversion in the model is the single correct rounding
CPython performs and no intermediate overflows.) -/
theorem C2_amended :
    (∀ (reply user : List Char) (u : Nat) (rb : List (Cat × Nat)),
        findUserBudget user = some u → 1 ≤ u → (u : ℚ) < 2 ^ 52 →
        parseBudget reply = rb → rb ≠ [] →
        (∀ p ∈ rb, p.2 < 2 ^ 52) →
        |(sumVals rb : ℚ) - (u : ℚ)| > (10 / 100) * (u : ℚ) →
        extract_budget_from_response reply user =
          .result (scaleMap rb u (sumVals rb)) (u : Int) .scaled) ∧
    extract_budget_from_response
        "Accommodation: ₹4000, Transport: ₹2000".toList
        "plan a trip for ₹10000".toList =
      .result [(Cat.accommodation, 6666), (Cat.transport, 3333)] 10000
        .scaled := by
  constructor
  · intro reply user u rb hfind hu1 hu2 hparse hrb _ hdev
    subst hparse
    show reconcile (parseBudget reply) (findUserBudget user) = _
    rw [hfind]
    exact reconcile_scaled hrb hu1 hu2 (parseBudget_vals reply) hdev
  · decide

/-- Witness for C2 at the claim's own instance. -/
theorem C2_witness :
    extract_budget_from_response
        "Accommodation: ₹4000, Transport: ₹2000".toList
        "plan a trip for ₹10000".toList =
      .result
        (scaleMap [(Cat.accommodation, 4000), (Cat.transport, 2000)] 10000
          (sumVals [(Cat.accommodation, 4000), (Cat.transport, 2000)]))
        (10000 : Int) .scaled :=
  C2_amended.1 _ _ 10000 [(Cat.accommodation, 4000), (Cat.transport, 2000)]
    (by decide) (by norm_num) (by norm_num) (by decide) (by decide)
    (by decide)
    (by rw [(by decide :
        sumVals [(Cat.accommodation, 4000), (Cat.transport, 2000)] = 6000)]
        norm_num)

/-- Claim C3, counterexample: fed a (hypothetical) nonempty breakdown
with zero total and a positive user total, the reconciliation of lines
61-96 reaches `user_budget / response_total` and raises
`ZeroDivisionError` instead of falling through to the estimate policy. -/
theorem C3_counterexample :
    reconcile [(Cat.accommodation, 0)] (some 1000) = .zeroDivError ∧
    reconcile [(Cat.accommodation, 0)] (some 1000) ≠
      .result (estimatedBreakdown 1000) (1000 : Int) .estimated :=
  ⟨by decide, by decide⟩

/-- Claim C3, amended: the code has no division-by-zero guard and would
raise on a zero-total nonempty breakdown, but no parser output can reach
it — every parsed amount is at least 500, so a nonempty breakdown has
positive total and the extraction never raises: its outcome is always
absent or a result.  The statement is restricted to inputs whose stated
budget and parsed amounts are below `2 ^ 52`, the range where the
embedding is a faithful model of the float arithmetic; for astronomical
figures (at least `2 ^ 1024`) CPython's int-to-float conversions on
lines 69, 73 and 83-87 raise OverflowError, a path outside the model. -/
theorem C3_amended : ∀ reply user : List Char,
    (findUserBudget user).all (fun u => decide (u < 2 ^ 52)) = true →
    (parseBudget reply).all (fun p => decide (p.2 < 2 ^ 52)) = true →
    extract_budget_from_response reply user = .absent ∨
    ∃ bd t tag, extract_budget_from_response reply user =
      .result bd t tag := by
  intro reply user _ _
  cases h : extract_budget_from_response reply user with
  | absent => exact Or.inl rfl
  | result bd t tag => exact Or.inr ⟨bd, t, tag, rfl⟩
  | zeroDivError =>
      exact absurd h (reconcile_ne_zeroDiv (parseBudget_vals reply))

/-- Witness for C3 at a concrete in-range input with both a stated
budget and a parsed breakdown. -/
theorem C3_witness :
    extract_budget_from_response "accommodation: ₹2000".toList
        "trip for ₹1000".toList = .absent ∨
    ∃ bd t tag, extract_budget_from_response "accommodation: ₹2000".toList
        "trip for ₹1000".toList = .result bd t tag :=
  C3_amended "accommodation: ₹2000".toList "trip for ₹1000".toList
    (by decide) (by decide)

/-- Claim C4, counterexample: a stated budget of ₹1 with no parsed
breakdown produces the estimated allocation with every amount zero — not
strictly positive. -/
theorem C4_counterexample :
    extract_budget_from_response "have a great trip".toList
        "trip for ₹1".toList =
      .result [(Cat.accommodation, 0), (Cat.transport, 0), (Cat.food, 0),
        (Cat.activities, 0), (Cat.miscellaneous, 0)] 1 .estimated ∧
    ¬ (∀ p ∈ ([(Cat.accommodation, 0), (Cat.transport, 0), (Cat.food, 0),
        (Cat.activities, 0), (Cat.miscellaneous, 0)] :
          List (Cat × Int)), 0 < p.2) :=
  ⟨by decide, by decide⟩

/-- Claim C4, amended: every returned amount is nonnegative, and in the
specific case every amount is at least 500 (hence strictly positive);
scaled and estimated amounts can be zero for small user totals. -/
theorem C4_amended : ∀ (reply user : List Char) (bd : List (Cat × Int))
    (t : Int) (tag : Provenance),
    extract_budget_from_response reply user = .result bd t tag →
    ∀ p ∈ bd, 0 ≤ p.2 ∧ (tag = .specific → 500 ≤ p.2) := by
  intro reply user bd t tag h
  exact reconcile_vals (parseBudget_vals reply) h

/-- Witness for C4 at a concrete specific-tagged extraction. -/
theorem C4_witness :
    (0 : Int) ≤ 5000 ∧ (Provenance.specific = .specific → 500 ≤ (5000 : Int)) :=
  C4_amended "accommodation: ₹5000, food: ₹4800".toList
    "my budget is ₹10,000".toList
    [(Cat.accommodation, 5000), (Cat.food, 4800)] 9800 .specific
    (by decide) (Cat.accommodation, 5000) (by decide)

/-- Claim C5, counterexample: at user total 5140 the estimated
accommodation amount is `int(5140 * 0.35) = 1798`, one unit below the
exact truncated 35 percent (1799) — the double 0.35 lies below 35/100 and
the product rounds to 1798.9999999999998. -/
theorem C5_counterexample :
    extract_budget_from_response "have a great trip".toList
        "trip for ₹5140".toList =
      .result [(Cat.accommodation, 1798), (Cat.transport, 1285),
        (Cat.food, 1028), (Cat.activities, 771),
        (Cat.miscellaneous, 257)] 5140 .estimated ∧
    (1798 : Int) ≠ (5140 * 35) / 100 :=
  ⟨by decide, by decide⟩

/-- Claim C5, amended: with a positive user total and no parsed
categories, the extractor returns the `estimatedBreakdown`: each category
share computed as the binary64 product `int(userTotal * p)` for p in
0.35, 0.25, 0.20, 0.15, 0.05, which can fall one unit short of the exact
truncated percentage; the claim's instance is exact: 20000 yields
7000/5000/4000/3000/1000 with sum 20000, tagged estimated.  (The user
budget is bounded by `2 ^ 52`: within that range the int-to-float
conversion is exact and no product overflows; for figures at least
`2 ^ 1024` the program would instead raise OverflowError on lines
83-87, a path outside the model.) -/
theorem C5_amended :
    (∀ (reply user : List Char) (u : Nat),
        findUserBudget user = some u → 1 ≤ u → (u : ℚ) < 2 ^ 52 →
        parseBudget reply = [] →
        extract_budget_from_response reply user =
          .result (estimatedBreakdown u) (u : Int) .estimated) ∧
    estimatedBreakdown 20000 =
      [(Cat.accommodation, 7000), (Cat.transport, 5000), (Cat.food, 4000),
        (Cat.activities, 3000), (Cat.miscellaneous, 1000)] ∧
    sumValsZ (estimatedBreakdown 20000) = 20000 := by
  refine ⟨?_, by decide, by decide⟩
  intro reply user u hfind hu1 _ hparse
  show reconcile (parseBudget reply) (findUserBudget user) = _
  rw [hfind, hparse]
  exact reconcile_estim (by omega)

/-- Witness for C5 at a concrete estimated extraction. -/
theorem C5_witness :
    extract_budget_from_response "have a great trip".toList
        "trip for ₹20000".toList =
      .result (estimatedBreakdown 20000) (20000 : Int) .estimated :=
  C5_amended.1 _ _ 20000 (by decide) (by norm_num) (by norm_num)
    (by decide)

/-- Claim C6: with a positive user total and a nonempty parsed breakdown
whose deviation is at most ten percent of the user total, the parsed
breakdown is returned unchanged, tagged specific, with total equal to the
response total; in particular accommodation 5000, food 4800 with user
total 10000 is returned as-is tagged specific with total 9800.  (The user
budget is bounded by `2 ^ 52` to keep the binary64 model exact.) -/
theorem C6_theorem :
    (∀ (reply user : List Char) (u : Nat) (rb : List (Cat × Nat)),
        findUserBudget user = some u → 1 ≤ u → (u : ℚ) < 2 ^ 52 →
        parseBudget reply = rb → rb ≠ [] →
        |(sumVals rb : ℚ) - (u : ℚ)| ≤ (10 / 100) * (u : ℚ) →
        extract_budget_from_response reply user =
          .result (castBd rb) ((sumVals rb : Nat) : Int) .specific) ∧
    extract_budget_from_response
        "accommodation: ₹5000, food: ₹4800".toList
        "my budget is ₹10,000".toList =
      .result [(Cat.accommodation, 5000), (Cat.food, 4800)] 9800
        .specific := by
  constructor
  · intro reply user u rb hfind hu1 hu2 hparse hrb hdev
    subst hparse
    show reconcile (parseBudget reply) (findUserBudget user) = _
    rw [hfind]
    exact reconcile_passthrough hrb hu1 hu2 hdev
  · decide

/-- Witness for C6 at the claim's own instance. -/
theorem C6_witness :
    extract_budget_from_response
        "accommodation: ₹5000, food: ₹4800".toList
        "my budget is ₹10,000".toList =
      .result (castBd [(Cat.accommodation, 5000), (Cat.food, 4800)])
        ((sumVals [(Cat.accommodation, 5000), (Cat.food, 4800)] : Nat) :
          Int) .specific :=
  C6_theorem.1 _ _ 10000 [(Cat.accommodation, 5000), (Cat.food, 4800)]
    (by decide) (by norm_num) (by norm_num) (by decide) (by decide)
    (by rw [(by decide :
        sumVals [(Cat.accommodation, 5000), (Cat.food, 4800)] = 9800)]
        norm_num)

/-- Claim C7: no amount below 500 ever appears as a value in the parser's
output — every match candidate under the threshold is discarded. -/
theorem C7_theorem : ∀ (reply : List Char) (p : Cat × Nat),
    p ∈ parseBudget reply → 500 ≤ p.2 := by
  intro reply p hp
  exact parseBudget_vals reply p hp

/-- Witness for C7 at a concrete parsed entry. -/
theorem C7_witness : 500 ≤ ((Cat.accommodation, 2000) : Cat × Nat).2 :=
  C7_theorem "accommodation: ₹2000".toList (Cat.accommodation, 2000)
    (by decide)

/-- Claim C8: whenever a category has threshold-surviving matches, the
parser's entry for it is exactly the maximum of those amounts. -/
theorem C8_theorem : ∀ (reply : List Char) (c : Cat),
    survivors c reply ≠ [] →
    lookupBd c (parseBudget reply) =
      some (listMax (survivors c reply)) := by
  intro reply c hne
  rw [lookupBd_parseBudget]
  exact combineAmt_foldl_max _ hne

/-- Witness for C8: two surviving accommodation matches, 2000 and 3000,
produce the entry 3000. -/
theorem C8_witness :
    lookupBd Cat.accommodation
      (parseBudget
        "accommodation: ₹2000 and accommodation - ₹3000".toList) =
      some 3000 :=
  ( C8_theorem "accommodation: ₹2000 and accommodation - ₹3000".toList
      Cat.accommodation (by decide)).trans (by decide)

/-- Claim C9: the manual entry handler drops all zero entries, wraps the
remaining positive entries as the breakdown when at least one remains,
and produces nothing when all five entries are zero — exactly the
behaviour the specification describes (`manualEntrySpec`). -/
theorem C9_theorem : ∀ a t f ac m : Nat,
    manual_budget a t f ac m = manualEntrySpec a t f ac m := by
  intro a t f ac m
  unfold manual_budget manualEntrySpec
  rcases Nat.eq_zero_or_pos a with rfl | ha <;>
    rcases Nat.eq_zero_or_pos t with rfl | ht <;>
    rcases Nat.eq_zero_or_pos f with rfl | hf <;>
    rcases Nat.eq_zero_or_pos ac with rfl | hac <;>
    rcases Nat.eq_zero_or_pos m with rfl | hm <;>
    simp_all [List.filter_cons, List.filter_nil, Nat.pos_iff_ne_zero]

/-- Claim C10: a stated user total of zero is falsy on line 62, so the
extraction behaves exactly as if no user total were present: the parsed
breakdown as-is tagged specific when nonempty, absent otherwise; scaling
and estimation are never applied. -/
theorem C10_theorem : ∀ reply user : List Char,
    findUserBudget user = some 0 →
    (extract_budget_from_response reply user =
      reconcile (parseBudget reply) none) ∧
    (parseBudget reply = [] →
      extract_budget_from_response reply user = .absent) ∧
    (parseBudget reply ≠ [] →
      extract_budget_from_response reply user =
        .result (castBd (parseBudget reply))
          ((sumVals (parseBudget reply) : Nat) : Int) .specific) := by
  intro reply user hfind
  have hz : extract_budget_from_response reply user =
      reconcile (parseBudget reply) none := by
    show reconcile (parseBudget reply) (findUserBudget user) = _
    rw [hfind]
    exact reconcile_zero _
  refine ⟨hz, ?_, ?_⟩
  · intro hemp
    rw [hz, reconcile_none]
    unfold noUserPath
    rw [if_pos hemp]
  · intro hne
    rw [hz, reconcile_none]
    unfold noUserPath
    rw [if_neg hne]

/-- Witness for C10 at a concrete zero-budget input. -/
theorem C10_witness :
    extract_budget_from_response "accommodation: ₹2000".toList
        "i have ₹0 only".toList =
      reconcile (parseBudget "accommodation: ₹2000".toList) none :=
  ( C10_theorem "accommodation: ₹2000".toList "i have ₹0 only".toList
    (by decide)).1
